import Mathlib

/-!
# Verification of `psearch/gen_db.py`

A shallow embedding of the database-generation module of the psearch
repository, together with proofs about its deduplication, conformer-pruning
and manifest-writing logic.

Modelling conventions:
* Python strings are Lean `String`s; `str.split('#')[0]` is the longest
  prefix of characters different from `'#'`; `str(n)` for a natural number
  is `Nat.repr`.
* Python's unbounded `while` loops are translated with an explicit fuel
  argument.  The fuel supplied by the callers is proven sufficient
  (pigeonhole over the finite lists being probed), so the fuel-exhausted
  branch is unreachable; this makes every definition executable by the
  kernel.
* Rational numbers stand for the floating-point energies and RMS values;
  the claims under study are control-flow properties, not rounding
  properties.
-/

namespace PSearch

/-! ## Decimal numerals

`gen_db.py` builds new identifiers with f-strings such as
`f"{name}#{suffix}"`, where `suffix` is a natural number rendered in
decimal.  Termination of its renaming loop rests on distinct suffixes
producing distinct strings, so we first characterise `Nat.repr`
(`(Nat.toDigits 10 n).asString`) via `Nat.digits` and prove it injective. -/

/-- The decimal character list of a natural number, most significant digit
first, as produced by `Nat.repr`. -/
def decChars (n : Nat) : List Char :=
  if n = 0 then ['0'] else ((Nat.digits 10 n).map Nat.digitChar).reverse

theorem toDigitsCore_eq_decChars :
    ∀ (fuel n : Nat) (ds : List Char), n < fuel →
      Nat.toDigitsCore 10 fuel n ds = decChars n ++ ds := by
  intro fuel
  induction fuel with
  | zero => intro n ds h; omega
  | succ f ih =>
    intro n ds h
    by_cases h0 : n = 0
    · subst h0
      simp only [Nat.toDigitsCore, decChars, if_pos rfl]
      norm_num
      rfl
    · by_cases h1 : n / 10 = 0
      · have hd : Nat.digits 10 n = [n % 10] := by
          rw [Nat.digits_def' (by norm_num) (Nat.pos_of_ne_zero h0), h1]
          simp
        simp [Nat.toDigitsCore, h1, decChars, h0, hd]
      · have hlt : n / 10 < f := by
          have : n / 10 < n := Nat.div_lt_self (Nat.pos_of_ne_zero h0) (by norm_num)
          omega
        have := ih (n / 10) (Nat.digitChar (n % 10) :: ds) hlt
        rw [show Nat.toDigitsCore 10 (f + 1) n ds =
              Nat.toDigitsCore 10 f (n / 10) (Nat.digitChar (n % 10) :: ds) by
            simp [Nat.toDigitsCore, h1], this]
        have hd : Nat.digits 10 n = n % 10 :: Nat.digits 10 (n / 10) := by
          exact Nat.digits_def' (by norm_num) (Nat.pos_of_ne_zero h0)
        simp [decChars, h0, h1, hd]

theorem repr_data (n : Nat) : (Nat.repr n).data = decChars n := by
  show (Nat.toDigits 10 n).asString.data = decChars n
  rw [Nat.toDigits, toDigitsCore_eq_decChars (n + 1) n [] (Nat.lt_succ_self n)]
  simp [List.asString]

theorem digitChar_inj_lt : ∀ a < 10, ∀ b < 10, Nat.digitChar a = Nat.digitChar b → a = b := by
  decide

theorem digitChar_ne_hash : ∀ a < 10, Nat.digitChar a ≠ '#' := by decide

theorem digitChar_ne_dot : ∀ a < 10, Nat.digitChar a ≠ '.' := by decide

theorem map_digitChar_inj :
    ∀ (l₁ l₂ : List Nat), (∀ d ∈ l₁, d < 10) → (∀ d ∈ l₂, d < 10) →
      l₁.map Nat.digitChar = l₂.map Nat.digitChar → l₁ = l₂ := by
  intro l₁
  induction l₁ with
  | nil => intro l₂ _ _ h; cases l₂ <;> simp_all
  | cons a t ih =>
    intro l₂ h₁ h₂ h
    cases l₂ with
    | nil => simp at h
    | cons b t₂ =>
      simp only [List.map_cons, List.cons.injEq] at h
      have hab : a = b :=
        digitChar_inj_lt a (h₁ a (by simp)) b (h₂ b (by simp)) h.1
      have := ih t₂ (fun d hd => h₁ d (by simp [hd])) (fun d hd => h₂ d (by simp [hd])) h.2
      simp [hab, this]

theorem decChars_ne_zero_chars (m : Nat) (hm : m ≠ 0) :
    ((Nat.digits 10 m).map Nat.digitChar).reverse ≠ ['0'] := by
  intro h
  have h' : (Nat.digits 10 m).map Nat.digitChar = ['0'] := by
    have h2 := congrArg List.reverse h
    rw [List.reverse_reverse] at h2
    simpa using h2
  have hd : Nat.digits 10 m = [0] := by
    rcases hdig : Nat.digits 10 m with _ | ⟨d, t⟩
    · simp [hdig] at h'
    · rw [hdig] at h'
      simp only [List.map_cons, List.cons.injEq] at h'
      have hd10 : d < 10 := by
        apply @Nat.digits_lt_base 10 m d (by norm_num)
        rw [hdig]
        exact List.mem_cons_self d t
      have hd0 : d = 0 := digitChar_inj_lt d hd10 0 (by norm_num) (by simpa using h'.1)
      have ht : t = [] := by
        rcases t with _ | _ <;> simp_all
      simp [hd0, ht]
  have : Nat.ofDigits 10 (Nat.digits 10 m) = m := Nat.ofDigits_digits 10 m
  rw [hd] at this
  simp [Nat.ofDigits] at this
  exact hm this.symm

theorem decChars_inj : Function.Injective decChars := by
  intro n m h
  by_cases hn : n = 0 <;> by_cases hm : m = 0
  · omega
  · exfalso
    simp only [decChars, hn, if_pos rfl, if_neg hm] at h
    exact decChars_ne_zero_chars m hm h.symm
  · exfalso
    simp only [decChars, hm, if_pos rfl, if_neg hn] at h
    exact decChars_ne_zero_chars n hn h
  · simp only [decChars, if_neg hn, if_neg hm] at h
    have h' := congrArg List.reverse h
    simp only [List.reverse_reverse] at h'
    have := map_digitChar_inj (Nat.digits 10 n) (Nat.digits 10 m)
      (fun d hd => Nat.digits_lt_base (by norm_num) hd)
      (fun d hd => Nat.digits_lt_base (by norm_num) hd) h'
    calc n = Nat.ofDigits 10 (Nat.digits 10 n) := (Nat.ofDigits_digits 10 n).symm
    _ = Nat.ofDigits 10 (Nat.digits 10 m) := by rw [this]
    _ = m := Nat.ofDigits_digits 10 m

theorem repr_inj : Function.Injective Nat.repr := by
  intro n m h
  exact decChars_inj (by rw [← repr_data, ← repr_data, h])

theorem decChars_is_digit (n : Nat) : ∀ c ∈ decChars n, ∃ d, d < 10 ∧ c = Nat.digitChar d := by
  intro c hc
  by_cases h0 : n = 0
  · subst h0
    simp [decChars] at hc
    exact ⟨0, by norm_num, by rw [hc]; rfl⟩
  · simp only [decChars, if_neg h0, List.mem_reverse, List.mem_map] at hc
    obtain ⟨d, hd, rfl⟩ := hc
    exact ⟨d, Nat.digits_lt_base (by norm_num) hd, rfl⟩

theorem decChars_ne_hash (n : Nat) : ∀ c ∈ decChars n, c ≠ '#' := by
  intro c hc
  obtain ⟨d, hd, rfl⟩ := decChars_is_digit n c hc
  exact digitChar_ne_hash d hd

theorem decChars_ne_dot (n : Nat) : ∀ c ∈ decChars n, c ≠ '.' := by
  intro c hc
  obtain ⟨d, hd, rfl⟩ := decChars_is_digit n c hc
  exact digitChar_ne_dot d hd

theorem decChars_ne_nil (n : Nat) : decChars n ≠ [] := by
  by_cases h0 : n = 0
  · simp [decChars, h0]
  · simp only [decChars, if_neg h0, ne_eq, List.reverse_eq_nil_iff, List.map_eq_nil_iff]
    exact Nat.digits_ne_nil_iff_ne_zero.mpr h0

/-! ## String helpers for the Deduplicator

`check_dupl_input` strips an identifier's suffix with
`mol_name.split("#")[0]` and builds candidate identifiers with
`f"{base}#{suffix}"`.  `hashBase` is the first component of the split:
the longest prefix of characters different from `'#'`. -/

/-- `s.split("#")[0]` of `gen_db.py`: everything before the first `'#'`. -/
def hashBase (s : String) : String :=
  ⟨s.data.takeWhile (fun c => c != '#')⟩

/-- The candidate identifier `f"{base}#{suffix}"` of `gen_db.py`. -/
def cand (base : String) (k : Nat) : String :=
  base ++ "#" ++ Nat.repr k

theorem takeWhile_all {p : Char → Bool} :
    ∀ l : List Char, (∀ c ∈ l, p c = true) → l.takeWhile p = l := by
  intro l h
  induction l with
  | nil => rfl
  | cons a t ih =>
    have ha := h a (by simp)
    simp [List.takeWhile_cons, ha, ih (fun c hc => h c (by simp [hc]))]

theorem takeWhile_append_stop {p : Char → Bool} :
    ∀ (l₁ : List Char) (x : Char) (l₂ : List Char),
      (∀ c ∈ l₁, p c = true) → p x = false →
      (l₁ ++ x :: l₂).takeWhile p = l₁ := by
  intro l₁ x l₂ h hx
  induction l₁ with
  | nil => simp [List.takeWhile_cons, hx]
  | cons a t ih =>
    have ha := h a (by simp)
    simp [List.takeWhile_cons, ha, ih (fun c hc => h c (by simp [hc]))]

theorem hashBase_no_hash (s : String) : ∀ c ∈ (hashBase s).data, c ≠ '#' := by
  intro c hc
  have hc' : c ∈ s.data.takeWhile (fun c => c != '#') := hc
  have h2 := List.mem_takeWhile_imp hc'
  simpa using h2

theorem data_cand (base : String) (k : Nat) :
    (cand base k).data = base.data ++ '#' :: decChars k := by
  show (base ++ "#" ++ Nat.repr k).data = _
  rw [String.data_append, String.data_append, repr_data, List.append_assoc]
  rfl

theorem hashBase_cand (base : String) (hb : ∀ c ∈ base.data, c ≠ '#') (k : Nat) :
    hashBase (cand base k) = base := by
  apply String.ext
  show ((cand base k).data.takeWhile fun c => c != '#') = base.data
  rw [data_cand]
  exact takeWhile_append_stop base.data '#' (decChars k)
    (fun c hc => by simpa using hb c hc) (by simp)

theorem cand_inj (base : String) (j k : Nat) (h : cand base j = cand base k) : j = k := by
  have hd : (cand base j).data = (cand base k).data := by rw [h]
  rw [data_cand, data_cand] at hd
  have h2 := List.append_cancel_left hd
  injection h2 with _ h3
  exact decChars_inj h3

theorem cand_ne_of_ne (base : String) {j k : Nat} (h : j ≠ k) : cand base j ≠ cand base k :=
  fun he => h (cand_inj base j k he)

/-! ## The renaming loop of `check_dupl_input`

```python
suffix = 1
while mol_name in box_mol_ids:
    mol_name = f"{str(mol_name.split('#')[0])}#{str(suffix)}"
    suffix += 1
```

Translated with fuel; `newMolName` supplies `ids.length + 2` units, which
lemma `renameLoop_spec`/`exists_cand_free` shows is enough for the
fuel-exhausted branch to be unreachable. -/

def renameLoop (ids : List String) : Nat → String → Nat → String
  | 0, name, _ => name
  | fuel + 1, name, suffix =>
    if name ∈ ids then
      renameLoop ids fuel (hashBase name ++ "#" ++ Nat.repr suffix) (suffix + 1)
    else name

/-- The body of the `elif mol_name in box_mol_ids` branch: run the renaming
loop on the colliding identifier. -/
def newMolName (ids : List String) (name : String) : String :=
  renameLoop ids (ids.length + 2) name 1

/-- Pigeonhole: among `ids.length + 1` distinct candidate identifiers at
least one is absent from `ids`. -/
theorem exists_cand_free (ids : List String) (base : String) (s : Nat) :
    ∃ i, i ≤ ids.length ∧ cand base (s + i) ∉ ids := by
  by_contra hall
  push_neg at hall
  have hsub : ((List.range (ids.length + 1)).map (fun i => cand base (s + i))) ⊆ ids := by
    intro x hx
    simp only [List.mem_map, List.mem_range] at hx
    obtain ⟨i, hi, rfl⟩ := hx
    exact hall i (by omega)
  have hnd : ((List.range (ids.length + 1)).map (fun i => cand base (s + i))).Nodup := by
    refine List.Nodup.map ?_ (List.nodup_range _)
    intro a b hab
    have := cand_inj base (s + a) (s + b) hab
    omega
  have hlen := List.Subperm.length_le (hnd.subperm hsub)
  simp at hlen

theorem renameLoop_cand_spec (ids : List String) (base : String)
    (hb : ∀ c ∈ base.data, c ≠ '#') :
    ∀ (f s : Nat), (∃ i, i ≤ f ∧ cand base (s + i) ∉ ids) →
      ∃ j, s ≤ j ∧ renameLoop ids (f + 1) (cand base s) (s + 1) = cand base j ∧
        cand base j ∉ ids ∧ ∀ i, s ≤ i → i < j → cand base i ∈ ids := by
  intro f
  induction f with
  | zero =>
    intro s ⟨i, hi, hfree⟩
    have hi0 : i = 0 := by omega
    subst hi0
    simp only [Nat.add_zero] at hfree
    refine ⟨s, le_refl s, ?_, hfree, fun i h1 h2 => absurd h2 (by omega)⟩
    simp [renameLoop, hfree]
  | succ f ih =>
    intro s ⟨i, hi, hfree⟩
    by_cases hmem : cand base s ∈ ids
    · have hstep : renameLoop ids (f + 1 + 1) (cand base s) (s + 1) =
          renameLoop ids (f + 1) (cand base (s + 1)) (s + 2) := by
        simp only [renameLoop, if_pos hmem]
        rw [hashBase_cand base hb s]
        rfl
      have hi' : ∃ i', i' ≤ f ∧ cand base (s + 1 + i') ∉ ids := by
        rcases i with _ | i'
        · exact absurd hfree (by simpa using hmem)
        · exact ⟨i', by omega, by rw [show s + 1 + i' = s + (i' + 1) by omega]; exact hfree⟩
      obtain ⟨j, hj1, hj2, hj3, hj4⟩ := ih (s + 1) hi'
      refine ⟨j, by omega, by rw [hstep]; exact hj2, hj3, ?_⟩
      intro i' h1 h2
      rcases Nat.eq_or_lt_of_le h1 with h1' | h1'
      · rw [← h1']; exact hmem
      · exact hj4 i' (by omega) h2
    · exact ⟨s, le_refl s, by simp [renameLoop, hmem], hmem,
        fun i h1 h2 => absurd h2 (by omega)⟩

/-- Full specification of the colliding-identifier renaming: for a name
present in `ids`, the loop returns `base#j` (`base` is the name stripped of
any `#`-suffix) for the least `j ≥ 1` such that `base#j` is unused. -/
theorem newMolName_spec (ids : List String) (name : String) (hmem : name ∈ ids) :
    ∃ j, 1 ≤ j ∧ newMolName ids name = cand (hashBase name) j ∧
      cand (hashBase name) j ∉ ids ∧
      ∀ i, 1 ≤ i → i < j → cand (hashBase name) i ∈ ids := by
  have hstep : newMolName ids name =
      renameLoop ids (ids.length + 1) (cand (hashBase name) 1) 2 := by
    show renameLoop ids (ids.length + 1 + 1) name 1 = _
    simp only [renameLoop, if_pos hmem]
    rfl
  obtain ⟨i, hi, hfree⟩ := exists_cand_free ids (hashBase name) 1
  obtain ⟨j, hj1, hj2, hj3, hj4⟩ :=
    renameLoop_cand_spec ids (hashBase name) (hashBase_no_hash name)
      ids.length 1 ⟨i, hi, hfree⟩
  exact ⟨j, hj1, by rw [hstep]; exact hj2, hj3, hj4⟩

theorem newMolName_not_mem (ids : List String) (name : String) (hmem : name ∈ ids) :
    newMolName ids name ∉ ids := by
  obtain ⟨j, _, h2, h3, _⟩ := newMolName_spec ids name hmem
  rw [h2]; exact h3

/-! ## The Deduplicator: `check_dupl_input`

The source maintains four parallel lists (`box_mols`, `box_smi`,
`box_mol_ids`, `box_flags`); every branch appends one element to each, so
we bundle them into a list of records.  An RDKit molecule is modelled by
its canonical SMILES string (the only attribute `check_dupl_input` reads,
via `Chem.MolToSmiles`).  The Python code appends the *string*
`"duplicate"` to the heterogeneous `box_mols` list as a sentinel; we model
the sentinel as `none`. -/

structure Mol where
  smiles : String
deriving DecidableEq

structure Entry where
  mol : Option Mol
  smi : String
  cid : String
  flag : Bool
deriving DecidableEq

def smis (st : List Entry) : List String := st.map (fun e => e.smi)

def cids (st : List Entry) : List String := st.map (fun e => e.cid)

def flags (st : List Entry) : List Bool := st.map (fun e => e.flag)

/-- One iteration of the `for mol, mol_name in read_input(fname)` loop of
`check_dupl_input`. -/
def dedupStep (st : List Entry) (p : Mol × String) : List Entry :=
  if p.1.smiles ∈ smis st then
    st ++ [⟨none, "duplicate", p.2, true⟩]
  else if p.2 ∈ cids st then
    st ++ [⟨some p.1, p.1.smiles, newMolName (cids st) p.2, true⟩]
  else
    st ++ [⟨some p.1, p.1.smiles, p.2, false⟩]

/-- `check_dupl_input`: the whole single pass over the input sequence. -/
def check_dupl_input (input : List (Mol × String)) : List Entry :=
  input.foldl dedupStep []

/-- `get_mol`: skip the sentinel entries. -/
def get_mol (st : List Entry) : List (Mol × String) :=
  st.filterMap (fun e => e.mol.map (fun m => (m, e.cid)))

/-- The identifiers of the entries that were not dropped as structural
duplicates. -/
def keptCids (st : List Entry) : List String :=
  (st.filter (fun e => e.mol.isSome)).map (fun e => e.cid)

theorem keptCids_subset (st : List Entry) : ∀ x ∈ keptCids st, x ∈ cids st := by
  intro x hx
  simp only [keptCids, List.mem_map, List.mem_filter] at hx
  obtain ⟨e, ⟨he, _⟩, rfl⟩ := hx
  exact List.mem_map_of_mem _ he

/-- Each branch of `check_dupl_input` appends exactly one record, and a
non-sentinel record always carries an identifier that was not yet in
`box_mol_ids`. -/
theorem dedupStep_characterization (st : List Entry) (p : Mol × String) :
    ∃ e, dedupStep st p = st ++ [e] ∧ (e.mol.isSome = true → e.cid ∉ cids st) := by
  unfold dedupStep
  by_cases h1 : p.1.smiles ∈ smis st
  · exact ⟨_, by rw [if_pos h1], by simp⟩
  · by_cases h2 : p.2 ∈ cids st
    · refine ⟨_, by rw [if_neg h1, if_pos h2], fun _ => ?_⟩
      exact newMolName_not_mem (cids st) p.2 h2
    · exact ⟨_, by rw [if_neg h1, if_neg h2], fun _ => h2⟩

theorem keptCids_nodup_step (st : List Entry) (p : Mol × String)
    (h : (keptCids st).Nodup) : (keptCids (dedupStep st p)).Nodup := by
  obtain ⟨e, heq, hfresh⟩ := dedupStep_characterization st p
  rw [heq]
  unfold keptCids
  rw [List.filter_append, List.map_append]
  by_cases hm : e.mol.isSome
  · have : List.filter (fun e => e.mol.isSome) [e] = [e] := by simp [hm]
    rw [this]
    rw [List.nodup_append]
    refine ⟨h, by simp, ?_⟩
    intro x hx
    simp only [List.map_cons, List.map_nil, List.mem_singleton]
    intro hxe
    exact hfresh hm (hxe ▸ keptCids_subset st x hx)
  · have : List.filter (fun e => e.mol.isSome) [e] = [] := by
      simp [List.filter, Bool.not_eq_true] at hm ⊢
      simp [hm]
    rw [this]
    simpa using h

/-- The fold preserves the kept-identifier distinctness invariant. -/
theorem keptCids_nodup_foldl (input : List (Mol × String)) :
    ∀ st : List Entry, (keptCids st).Nodup → (keptCids (input.foldl dedupStep st)).Nodup := by
  induction input with
  | nil => intro st h; exact h
  | cons p rest ih =>
    intro st h
    exact ih (dedupStep st p) (keptCids_nodup_step st p h)

/-- **C1.** For every input sequence of (structure, identifier) pairs, the
identifiers of the entries that `check_dupl_input` did not drop as
structural duplicates are pairwise distinct. -/
theorem C1_dedup_kept_identifiers_unique (input : List (Mol × String)) :
    (keptCids (check_dupl_input input)).Nodup :=
  keptCids_nodup_foldl input [] (by simp [keptCids])

/-- **C5.** Identifier-collision resolution: two structurally distinct
molecules both named `"A"` come out as `["A", "A#1"]`, three as
`["A", "A#1", "A#2"]` (with the altered flag set on the renamed entries);
in general a colliding identifier is renamed to `base#j` — `base` being the
identifier stripped of any prior `#`-suffix — for the least `j ≥ 1` making
the identifier unused. -/
theorem C5_identifier_collision_renaming :
    (cids (check_dupl_input [(⟨"C"⟩, "A"), (⟨"CC"⟩, "A")]) = ["A", "A#1"] ∧
      flags (check_dupl_input [(⟨"C"⟩, "A"), (⟨"CC"⟩, "A")]) = [false, true]) ∧
    (cids (check_dupl_input [(⟨"C"⟩, "A"), (⟨"CC"⟩, "A"), (⟨"CCC"⟩, "A")]) =
        ["A", "A#1", "A#2"] ∧
      flags (check_dupl_input [(⟨"C"⟩, "A"), (⟨"CC"⟩, "A"), (⟨"CCC"⟩, "A")]) =
        [false, true, true]) ∧
    (∀ (ids : List String) (name : String), name ∈ ids →
      ∃ j, 1 ≤ j ∧ newMolName ids name = cand (hashBase name) j ∧
        cand (hashBase name) j ∉ ids ∧
        ∀ i, 1 ≤ i → i < j → cand (hashBase name) i ∈ ids) :=
  ⟨⟨by decide, by decide⟩, ⟨by decide, by decide⟩, newMolName_spec⟩

theorem C5_identifier_collision_renaming_witness :
    ("A" ∈ ["A"]) ∧
      (∃ j, 1 ≤ j ∧ newMolName ["A"] "A" = cand (hashBase "A") j ∧
        cand (hashBase "A") j ∉ ["A"] ∧
        ∀ i, 1 ≤ i → i < j → cand (hashBase "A") i ∈ ["A"]) :=
  ⟨by decide, C5_identifier_collision_renaming.2.2 ["A"] "A" (by decide)⟩

/-- **C10.** A dropped structural duplicate's identifier stays reserved:
the duplicate branch records `q.2` in `box_mol_ids`, so a later entry with
a fresh structure but the same identifier goes through the collision
branch — renamed by the same `newMolName` resolution and flagged `true` —
exactly as if it had collided with a kept entry. -/
theorem C10_dropped_duplicate_reserves_identifier (st : List Entry) (q r : Mol × String)
    (hq : q.1.smiles ∈ smis st) (hr : r.1.smiles ∉ smis (dedupStep st q))
    (hrq : r.2 = q.2) :
    cids (dedupStep st q) = cids st ++ [q.2] ∧
    dedupStep (dedupStep st q) r =
      dedupStep st q ++
        [⟨some r.1, r.1.smiles, newMolName (cids (dedupStep st q)) r.2, true⟩] ∧
    newMolName (cids (dedupStep st q)) r.2 ∉ cids (dedupStep st q) := by
  have hc : cids (dedupStep st q) = cids st ++ [q.2] := by
    unfold dedupStep
    rw [if_pos hq]
    simp [cids]
  have hmem : r.2 ∈ cids (dedupStep st q) := by
    rw [hc, hrq]
    simp
  refine ⟨hc, ?_, newMolName_not_mem _ _ hmem⟩
  conv_lhs => rw [dedupStep]
  rw [if_neg hr, if_pos hmem]

theorem C10_dropped_duplicate_reserves_identifier_witness :
    cids (dedupStep [⟨some ⟨"C"⟩, "C", "A", false⟩] (⟨"C"⟩, "B")) =
      cids [⟨some ⟨"C"⟩, "C", "A", false⟩] ++ ["B"] ∧
    dedupStep (dedupStep [⟨some ⟨"C"⟩, "C", "A", false⟩] (⟨"C"⟩, "B")) (⟨"CC"⟩, "B") =
      dedupStep [⟨some ⟨"C"⟩, "C", "A", false⟩] (⟨"C"⟩, "B") ++
        [⟨some ⟨"CC"⟩, "CC",
          newMolName (cids (dedupStep [⟨some ⟨"C"⟩, "C", "A", false⟩] (⟨"C"⟩, "B"))) "B",
          true⟩] ∧
    newMolName (cids (dedupStep [⟨some ⟨"C"⟩, "C", "A", false⟩] (⟨"C"⟩, "B"))) "B" ∉
      cids (dedupStep [⟨some ⟨"C"⟩, "C", "A", false⟩] (⟨"C"⟩, "B")) :=
  C10_dropped_duplicate_reserves_identifier
    [⟨some ⟨"C"⟩, "C", "A", false⟩] (⟨"C"⟩, "B") (⟨"CC"⟩, "B")
    (by decide) (by decide) (by decide)

/-! ## Conformers and `remove_confs`

A conformer is modelled by its RDKit conformer id, an abstract geometry
tag (standing for its 3D coordinates, which survive reindexing), and the
MMFF energy of that geometry — `none` when
`MMFFGetMoleculeForceField` returns `NONE` for it.  The external
`AllChem.GetConformerRMS(mol, i1, i2)` is modelled by a parameter
`R : Nat → Nat → ℚ` applied to the geometries the two ids refer to. -/

structure Conf where
  id : Nat
  geom : Nat
  energy : Option ℚ
deriving DecidableEq

/-- The first loop of `remove_confs`: collect `(conf.GetId(), ff.CalcEnergy())`
pairs in conformer order, aborting with `None` as soon as the force field is
unavailable for a conformer. -/
def collectEnergies : List Conf → Option (List (Nat × ℚ))
  | [] => some []
  | c :: cs =>
    match c.energy with
    | none => none
    | some v => (collectEnergies cs).map (fun es => (c.id, v) :: es)

/-- Stable insertion into a list sorted in nondecreasing key order: the new
element goes before the first element whose key is not smaller. -/
def insertE {α : Type} (key : α → ℚ) (x : α) : List α → List α
  | [] => [x]
  | y :: ys => if key y < key x then y :: insertE key x ys else x :: y :: ys

/-- `sorted(e, key=lambda x: x[1])`: Python's sort is stable, and any two
stable ascending sorts agree, so we use stable insertion sort. -/
def sortE {α : Type} (key : α → ℚ) : List α → List α
  | [] => []
  | x :: xs => insertE key x (sortE key xs)

/-- `itertools.combinations(l, 2)` in the order Python produces it. -/
def pairsOf {α : Type} : List α → List (α × α)
  | [] => []
  | x :: xs => xs.map (fun y => (x, y)) ++ pairsOf xs

/-- Look up a conformer by RDKit id (ids are unique on a well-formed
molecule, an invariant we carry as a `Nodup` hypothesis). -/
def confById (mol : List Conf) (i : Nat) : Option Conf :=
  mol.find? (fun c => c.id == i)

/-- The geometry a conformer id refers to; the default is never reached for
ids drawn from the molecule. -/
def geomById (mol : List Conf) (i : Nat) : Nat :=
  match confById mol i with
  | some c => c.geom
  | none => 0

/-- `AllChem.GetConformerRMS(mol, i1, i2)` as a function of the two
referenced geometries. -/
def rmsdById (R : Nat → Nat → ℚ) (mol : List Conf) (i j : Nat) : ℚ :=
  R (geomById mol i) (geomById mol j)

/-- `kept_ids` after the energy-cutoff loop: always the minimum-energy
entry, plus — only when `energy` is set — every later entry within the
cutoff. -/
def keptIds (energy : Option ℚ) (e0 : Nat × ℚ) (etail : List (Nat × ℚ)) : List Nat :=
  match energy with
  | none => [e0.1]
  | some en => e0.1 :: (etail.filter (fun it => decide (it.2 - e0.2 ≤ en))).map (fun it => it.1)

/-- `remove_ids` after the energy-cutoff loop. -/
def removedEnergyIds (energy : Option ℚ) (e0 : Nat × ℚ) (etail : List (Nat × ℚ)) : List Nat :=
  match energy with
  | none => []
  | some en => (etail.filter (fun it => !decide (it.2 - e0.2 ≤ en))).map (fun it => it.1)

/-- The initial `rms_list`:
`[(i1, i2, GetConformerRMS(mol, i1, i2)) for i1, i2 in combinations(kept_ids, 2)]`. -/
def rmsList (R : Nat → Nat → ℚ) (mol : List Conf) (kept : List Nat) :
    List (Nat × Nat × ℚ) :=
  (pairsOf kept).map (fun p => (p.1, p.2, rmsdById R mol p.1 p.2))

/-- The greedy `while any(item[2] < rms ...)` loop of `remove_confs` with
fuel.  Each iteration takes the first entry below the threshold, marks its
second conformer for removal and drops every pair mentioning it, which
strictly shrinks the list; `pruneRms` therefore supplies `l.length` fuel,
which is enough for the fuel-exhausted branch to be unreachable. -/
def pruneRmsF (r : ℚ) : Nat → List (Nat × Nat × ℚ) → List (Nat × Nat × ℚ) × List Nat
  | 0, l => (l, [])
  | f + 1, l =>
    match l.find? (fun it => decide (it.2.2 < r)) with
    | none => (l, [])
    | some it =>
      let res := pruneRmsF r f
        (l.filter (fun p => !(p.1 == it.2.1) && !(p.2.1 == it.2.1)))
      (res.1, it.2.1 :: res.2)

def pruneRms (r : ℚ) (l : List (Nat × Nat × ℚ)) : List (Nat × Nat × ℚ) × List Nat :=
  pruneRmsF r l.length l

/-- The ids appended to `remove_ids` by the RMS loop (empty when `rms` is
unset). -/
def rmsRemovedIds (R : Nat → Nat → ℚ) (rms : Option ℚ) (mol : List Conf)
    (kept : List Nat) : List Nat :=
  match rms with
  | none => []
  | some r => (pruneRms r (rmsList R mol kept)).2

/-- The complete `remove_ids` list of `remove_confs`; `none` when the
function returns early (force field unavailable, or no conformers). -/
def remove_confs_core (R : Nat → Nat → ℚ) (energy rms : Option ℚ) (mol : List Conf) :
    Option (List Nat) :=
  match collectEnergies mol with
  | none => none
  | some es =>
    match sortE (fun p => p.2) es with
    | [] => none
    | e0 :: etail =>
      some (removedEnergyIds energy e0 etail ++
        rmsRemovedIds R rms mol (keptIds energy e0 etail))

/-- The final reindexing loop: conformer ids are reassigned `0, 1, …` in
list order. -/
def reindex (l : List Conf) : List Conf :=
  l.enum.map (fun p => ⟨p.1, p.2.geom, p.2.energy⟩)

/-- The conformers left on the molecule after the `mol.RemoveConformer(cid)`
loop (before reindexing); on an early return the molecule is untouched. -/
def survivors (R : Nat → Nat → ℚ) (energy rms : Option ℚ) (mol : List Conf) : List Conf :=
  match remove_confs_core R energy rms mol with
  | none => mol
  | some rem => mol.filter (fun c => !(rem.contains c.id))

/-- `remove_confs(mol, energy, rms)`: the conformer list of the molecule
after the call (mutation is modelled by returning the new list). -/
def remove_confs (R : Nat → Nat → ℚ) (energy rms : Option ℚ) (mol : List Conf) : List Conf :=
  match remove_confs_core R energy rms mol with
  | none => mol
  | some rem => reindex (mol.filter (fun c => !(rem.contains c.id)))

/-! ### Lemmas about the stable sort -/

theorem insertE_perm {α : Type} (key : α → ℚ) (x : α) (l : List α) :
    (insertE key x l).Perm (x :: l) := by
  induction l with
  | nil => exact List.Perm.refl _
  | cons y ys ih =>
    by_cases h : key y < key x
    · rw [insertE, if_pos h]
      exact (ih.cons y).trans (List.Perm.swap x y ys)
    · rw [insertE, if_neg h]

theorem sortE_perm {α : Type} (key : α → ℚ) (l : List α) : (sortE key l).Perm l := by
  induction l with
  | nil => exact List.Perm.refl _
  | cons x xs ih =>
    exact (insertE_perm key x (sortE key xs)).trans (ih.cons x)

theorem mem_sortE {α : Type} (key : α → ℚ) (l : List α) (a : α) :
    a ∈ sortE key l ↔ a ∈ l :=
  (sortE_perm key l).mem_iff

theorem sortE_length {α : Type} (key : α → ℚ) (l : List α) :
    (sortE key l).length = l.length :=
  (sortE_perm key l).length_eq

theorem insertE_sorted {α : Type} (key : α → ℚ) (x : α) (l : List α)
    (h : List.Sorted (fun a b => key a ≤ key b) l) :
    List.Sorted (fun a b => key a ≤ key b) (insertE key x l) := by
  induction l with
  | nil => simp [insertE]
  | cons y ys ih =>
    rw [List.sorted_cons] at h
    by_cases hlt : key y < key x
    · rw [insertE, if_pos hlt, List.sorted_cons]
      refine ⟨fun b hb => ?_, ih h.2⟩
      rcases List.mem_cons.mp ((insertE_perm key x ys).mem_iff.mp hb) with hb | hb
      · rw [hb]; exact le_of_lt hlt
      · exact h.1 b hb
    · rw [insertE, if_neg hlt, List.sorted_cons]
      refine ⟨fun b hb => ?_, List.sorted_cons.mpr h⟩
      rcases List.mem_cons.mp hb with hb | hb
      · rw [hb]; exact le_of_not_lt hlt
      · exact (le_of_not_lt hlt).trans (h.1 b hb)

theorem sortE_sorted {α : Type} (key : α → ℚ) (l : List α) :
    List.Sorted (fun a b => key a ≤ key b) (sortE key l) := by
  induction l with
  | nil => simp [sortE]
  | cons x xs ih => exact insertE_sorted key x (sortE key xs) ih

/-- The head of the sorted list is minimal among all entries. -/
theorem sortE_head_min {α : Type} (key : α → ℚ) (l : List α) (e0 : α) (rest : List α)
    (h : sortE key l = e0 :: rest) : ∀ x ∈ l, key e0 ≤ key x := by
  intro x hx
  have hx' : x ∈ e0 :: rest := h ▸ (mem_sortE key l x).mpr hx
  rcases List.mem_cons.mp hx' with hx' | hx'
  · rw [hx']
  · have := sortE_sorted key l
    rw [h, List.sorted_cons] at this
    exact this.1 x hx'

theorem insertE_all_ge {α : Type} (key : α → ℚ) (x : α) (l : List α)
    (h : ∀ y ∈ l, ¬ key y < key x) : insertE key x l = x :: l := by
  cases l with
  | nil => rfl
  | cons y ys => rw [insertE, if_neg (h y (by simp))]

theorem filter_insertE_pos {α : Type} (key : α → ℚ) (p : α → Bool) (x : α) (l : List α)
    (hl : List.Sorted (fun a b => key a ≤ key b) l) (hx : p x = true) :
    (insertE key x l).filter p = insertE key x (l.filter p) := by
  induction l with
  | nil => simp [insertE, hx]
  | cons y ys ih =>
    rw [List.sorted_cons] at hl
    by_cases hlt : key y < key x
    · rw [insertE, if_pos hlt, List.filter_cons, List.filter_cons]
      by_cases hy : p y
      · rw [if_pos hy, if_pos hy, ih hl.2]
        have h2 : insertE key x (y :: List.filter p ys) =
            if key y < key x then y :: insertE key x (List.filter p ys)
            else x :: y :: List.filter p ys := rfl
        rw [h2, if_pos hlt]
      · rw [if_neg hy, if_neg hy]
        exact ih hl.2
    · rw [insertE, if_neg hlt, List.filter_cons, if_pos hx]
      have hall : ∀ z ∈ (y :: ys).filter p, ¬ key z < key x := by
        intro z hz
        have hz' : z ∈ y :: ys := List.mem_of_mem_filter hz
        rcases List.mem_cons.mp hz' with hz' | hz'
        · rw [hz']; exact hlt
        · exact not_lt_of_ge ((le_of_not_lt hlt).trans (hl.1 z hz'))
      rw [insertE_all_ge key x _ hall]

theorem filter_insertE_neg {α : Type} (key : α → ℚ) (p : α → Bool) (x : α) (l : List α)
    (hx : p x = false) :
    (insertE key x l).filter p = l.filter p := by
  induction l with
  | nil => simp [insertE, hx]
  | cons y ys ih =>
    by_cases hlt : key y < key x
    · rw [insertE, if_pos hlt, List.filter_cons, List.filter_cons]
      by_cases hy : p y
      · rw [if_pos hy, if_pos hy, ih]
      · rw [if_neg hy, if_neg hy]
        exact ih
    · rw [insertE, if_neg hlt, List.filter_cons, if_neg (by simp [hx])]

/-- Stability: sorting commutes with filtering. -/
theorem sortE_filter {α : Type} (key : α → ℚ) (p : α → Bool) (l : List α) :
    sortE key (l.filter p) = (sortE key l).filter p := by
  induction l with
  | nil => rfl
  | cons x xs ih =>
    rw [List.filter_cons]
    by_cases hx : p x
    · rw [if_pos hx]
      show insertE key x (sortE key (xs.filter p)) = _
      rw [ih, ← filter_insertE_pos key p x (sortE key xs) (sortE_sorted key xs) hx]
      rfl
    · rw [if_neg hx]
      rw [ih, ← filter_insertE_neg key p x (sortE key xs) (by simpa using hx)]
      rfl

theorem insertE_map {α β : Type} (key₁ : α → ℚ) (key₂ : β → ℚ) (g : α → β)
    (hk : ∀ a, key₂ (g a) = key₁ a) (x : α) (l : List α) :
    insertE key₂ (g x) (l.map g) = (insertE key₁ x l).map g := by
  induction l with
  | nil => rfl
  | cons y ys ih =>
    by_cases hlt : key₁ y < key₁ x
    · rw [List.map_cons, insertE, if_pos (by rw [hk, hk]; exact hlt), ih,
        insertE, if_pos hlt, List.map_cons]
    · rw [List.map_cons, insertE, if_neg (by rw [hk, hk]; exact hlt),
        insertE, if_neg hlt]
      rfl

/-- Sorting commutes with relabelling that preserves the key. -/
theorem sortE_map {α β : Type} (key₁ : α → ℚ) (key₂ : β → ℚ) (g : α → β)
    (hk : ∀ a, key₂ (g a) = key₁ a) (l : List α) :
    sortE key₂ (l.map g) = (sortE key₁ l).map g := by
  induction l with
  | nil => rfl
  | cons x xs ih =>
    rw [List.map_cons]
    show insertE key₂ (g x) (sortE key₂ (xs.map g)) = _
    rw [ih, insertE_map key₁ key₂ g hk x (sortE key₁ xs)]
    rfl

/-! ### Lemmas about energy collection -/

/-- The energy value of a conformer whose force field succeeded. -/
def val (c : Conf) : ℚ := c.energy.getD 0

/-- The `(conf.GetId(), ff.CalcEnergy())` pair a successful conformer
contributes to `e`. -/
def eKey (c : Conf) : Nat × ℚ := (c.id, val c)

theorem collectEnergies_all_some (mol : List Conf)
    (h : ∀ c ∈ mol, c.energy.isSome = true) :
    collectEnergies mol = some (mol.map eKey) := by
  induction mol with
  | nil => rfl
  | cons c cs ih =>
    obtain ⟨v, hv⟩ := Option.isSome_iff_exists.mp (h c (by simp))
    have ih' := ih (fun d hd => h d (by simp [hd]))
    simp only [collectEnergies, hv, ih', Option.map_some', List.map_cons]
    simp [eKey, val, hv]

theorem collectEnergies_has_none (mol : List Conf) (c : Conf) (hc : c ∈ mol)
    (h : c.energy = none) : collectEnergies mol = none := by
  induction mol with
  | nil => cases hc
  | cons d ds ih =>
    rcases hd : d.energy with _ | v
    · simp [collectEnergies, hd]
    · rcases List.mem_cons.mp hc with hcd | hcd
      · rw [hcd] at h; rw [h] at hd; cases hd
      · simp [collectEnergies, hd, ih hcd]

/-! ### Lemmas about `pairsOf` -/

theorem pairsOf_map {α β : Type} (f : α → β) (l : List α) :
    pairsOf (l.map f) = (pairsOf l).map (fun p => (f p.1, f p.2)) := by
  induction l with
  | nil => rfl
  | cons x xs ih =>
    simp only [List.map_cons, pairsOf, ih, List.map_append, List.map_map]
    rfl

theorem mem_pairsOf_of_sublist {α : Type} (a b : α) (l : List α)
    (h : List.Sublist [a, b] l) : (a, b) ∈ pairsOf l := by
  induction l with
  | nil => cases h
  | cons x xs ih =>
    cases h with
    | cons _ h =>
      exact List.mem_append_right _ (ih h)
    | cons₂ _ h =>
      exact List.mem_append_left _ (List.mem_map_of_mem _ (List.singleton_sublist.mp h))

theorem sublist_of_mem_pairsOf {α : Type} (a b : α) (l : List α)
    (h : (a, b) ∈ pairsOf l) : List.Sublist [a, b] l := by
  induction l with
  | nil => cases h
  | cons x xs ih =>
    rcases List.mem_append.mp h with h | h
    · obtain ⟨y, hy, he⟩ := List.mem_map.mp h
      have h2 : x = a ∧ y = b := Prod.mk.injEq x y a b ▸ he
      obtain ⟨rfl, rfl⟩ := h2
      exact (List.singleton_sublist.mpr hy).cons₂ x
    · exact (ih h).cons x

theorem pairsOf_subset_of_sublist {α : Type} (l₁ l₂ : List α) (h : List.Sublist l₁ l₂) :
    ∀ p ∈ pairsOf l₁, p ∈ pairsOf l₂ := by
  intro p hp
  obtain ⟨a, b⟩ := p
  exact mem_pairsOf_of_sublist a b l₂ ((sublist_of_mem_pairsOf a b l₁ hp).trans h)

theorem snd_mem_tail_of_mem_pairsOf {α : Type} (a b x : α) (xs : List α)
    (h : (a, b) ∈ pairsOf (x :: xs)) : b ∈ xs := by
  have hs := sublist_of_mem_pairsOf a b (x :: xs) h
  cases hs with
  | cons _ hs => exact hs.subset (by simp)
  | cons₂ _ hs => exact List.singleton_sublist.mp hs

theorem mem_pairsOf_or_swap {α : Type} (a b : α) (l : List α)
    (ha : a ∈ l) (hb : b ∈ l) (hab : a ≠ b) :
    (a, b) ∈ pairsOf l ∨ (b, a) ∈ pairsOf l := by
  induction l with
  | nil => cases ha
  | cons x xs ih =>
    rcases List.mem_cons.mp ha with ha' | ha'
    · left
      subst ha'
      have hb' : b ∈ xs := by
        rcases List.mem_cons.mp hb with h | h
        · exact absurd h.symm hab
        · exact h
      exact List.mem_append_left _ (List.mem_map_of_mem _ hb')
    · rcases List.mem_cons.mp hb with hb' | hb'
      · right
        subst hb'
        exact List.mem_append_left _ (List.mem_map_of_mem _ ha')
      · rcases ih ha' hb' with h | h
        · exact Or.inl (List.mem_append_right _ h)
        · exact Or.inr (List.mem_append_right _ h)

/-! ### Lemmas about the greedy RMS pruning loop -/

theorem length_filter_lt_of_mem {α : Type} (p : α → Bool) (l : List α) (x : α)
    (hx : x ∈ l) (hpx : p x = false) : (l.filter p).length < l.length := by
  induction l with
  | nil => cases hx
  | cons y ys ih =>
    rw [List.filter_cons]
    rcases List.mem_cons.mp hx with hxy | hxy
    · subst hxy
      rw [if_neg (by simp [hpx])]
      exact Nat.lt_succ_of_le (List.length_filter_le p ys)
    · by_cases hy : p y
      · rw [if_pos hy]
        simpa using ih hxy
      · rw [if_neg hy]
        exact (ih hxy).trans (Nat.lt_succ_self _)

/-- The predicate used by the greedy loop to drop pairs touching the
removed conformer evaluates to `false` on the violating pair itself. -/
theorem prunePred_self_false (itf : Nat × Nat × ℚ) :
    (!(itf.1 == itf.2.1) && !(itf.2.1 == itf.2.1)) = false := by
  simp

/-- At the end of the loop no remaining pair is below the threshold. -/
theorem pruneRmsF_no_viol (r : ℚ) :
    ∀ (f : Nat) (l : List (Nat × Nat × ℚ)), l.length ≤ f →
      ∀ it ∈ (pruneRmsF r f l).1, ¬(it.2.2 < r) := by
  intro f
  induction f with
  | zero =>
    intro l hl it hit
    have : l = [] := List.length_eq_zero.mp (Nat.le_zero.mp hl)
    subst this
    simp [pruneRmsF] at hit
  | succ f ih =>
    intro l hl it hit
    rcases hfind : l.find? (fun it => decide (it.2.2 < r)) with _ | itf
    · simp only [pruneRmsF, hfind] at hit
      have := List.find?_eq_none.mp hfind it hit
      simpa using this
    · simp only [pruneRmsF, hfind] at hit
      have hmem : itf ∈ l := List.mem_of_find?_eq_some hfind
      have hlt : (l.filter
          (fun p => !(p.1 == itf.2.1) && !(p.2.1 == itf.2.1))).length < l.length :=
        length_filter_lt_of_mem _ l itf hmem (prunePred_self_false itf)
      exact ih _ (by omega) it hit

/-- A pair neither of whose conformers was removed survives the loop. -/
theorem pruneRmsF_mem_result (r : ℚ) :
    ∀ (f : Nat) (l : List (Nat × Nat × ℚ)) (p : Nat × Nat × ℚ), p ∈ l →
      p.1 ∉ (pruneRmsF r f l).2 → p.2.1 ∉ (pruneRmsF r f l).2 →
      p ∈ (pruneRmsF r f l).1 := by
  intro f
  induction f with
  | zero => intro l p hp _ _; simpa [pruneRmsF] using hp
  | succ f ih =>
    intro l p hp h1 h2
    rcases hfind : l.find? (fun it => decide (it.2.2 < r)) with _ | itf
    · simpa [pruneRmsF, hfind] using hp
    · simp only [pruneRmsF, hfind] at h1 h2 ⊢
      have hp1 : p.1 ≠ itf.2.1 := fun he => h1 (by simp [he])
      have hp2 : p.2.1 ≠ itf.2.1 := fun he => h2 (by simp [he])
      refine ih _ p (List.mem_filter.mpr ⟨hp, by simp [hp1, hp2]⟩) ?_ ?_
      · exact fun hin => h1 (List.mem_cons_of_mem _ hin)
      · exact fun hin => h2 (List.mem_cons_of_mem _ hin)

/-- Every id the loop removes occurs as the second component of some pair
of the initial list. -/
theorem pruneRmsF_removed_are_seconds (r : ℚ) :
    ∀ (f : Nat) (l : List (Nat × Nat × ℚ)), ∀ x ∈ (pruneRmsF r f l).2,
      ∃ p, p ∈ l ∧ p.2.1 = x := by
  intro f
  induction f with
  | zero => intro l x hx; simp [pruneRmsF] at hx
  | succ f ih =>
    intro l x hx
    rcases hfind : l.find? (fun it => decide (it.2.2 < r)) with _ | itf
    · simp [pruneRmsF, hfind] at hx
    · simp only [pruneRmsF, hfind, List.mem_cons] at hx
      rcases hx with hx | hx
      · exact ⟨itf, List.mem_of_find?_eq_some hfind, hx.symm⟩
      · obtain ⟨p, hp, hps⟩ := ih _ x hx
        exact ⟨p, List.mem_of_mem_filter hp, hps⟩

theorem pruneRms_no_viol (r : ℚ) (l : List (Nat × Nat × ℚ)) :
    ∀ it ∈ (pruneRms r l).1, ¬(it.2.2 < r) :=
  pruneRmsF_no_viol r l.length l (le_refl _)

theorem pruneRms_mem_result (r : ℚ) (l : List (Nat × Nat × ℚ)) (p : Nat × Nat × ℚ)
    (hp : p ∈ l) (h1 : p.1 ∉ (pruneRms r l).2) (h2 : p.2.1 ∉ (pruneRms r l).2) :
    p ∈ (pruneRms r l).1 :=
  pruneRmsF_mem_result r l.length l p hp h1 h2

theorem pruneRms_removed_are_seconds (r : ℚ) (l : List (Nat × Nat × ℚ)) :
    ∀ x ∈ (pruneRms r l).2, ∃ p, p ∈ l ∧ p.2.1 = x :=
  pruneRmsF_removed_are_seconds r l.length l

/-- If no pair violates the threshold the loop removes nothing. -/
theorem pruneRms_removed_nil (r : ℚ) (l : List (Nat × Nat × ℚ))
    (h : ∀ it ∈ l, ¬(it.2.2 < r)) : (pruneRms r l).2 = [] := by
  have hfind : l.find? (fun it => decide (it.2.2 < r)) = none :=
    List.find?_eq_none.mpr (fun x hx => by simpa using h x hx)
  unfold pruneRms
  cases l with
  | nil => rfl
  | cons x xs => simp [pruneRmsF, hfind]

/-! ### Lookup and reindex lemmas -/

theorem confById_of_mem (mol : List Conf) (c : Conf)
    (hnd : (mol.map (fun c => c.id)).Nodup) (hc : c ∈ mol) :
    confById mol c.id = some c := by
  induction mol with
  | nil => cases hc
  | cons d ds ih =>
    simp only [List.map_cons, List.nodup_cons] at hnd
    rcases List.mem_cons.mp hc with h | h
    · subst h
      unfold confById
      rw [List.find?_cons_of_pos _ (by simp)]
    · have hne : d.id ≠ c.id := by
        intro he
        exact hnd.1 (he ▸ List.mem_map_of_mem _ h)
      unfold confById
      rw [List.find?_cons_of_neg _ (by simp [hne])]
      exact ih hnd.2 h

theorem geomById_of_mem (mol : List Conf) (c : Conf)
    (hnd : (mol.map (fun c => c.id)).Nodup) (hc : c ∈ mol) :
    geomById mol c.id = c.geom := by
  unfold geomById
  rw [confById_of_mem mol c hnd hc]

theorem rmsdById_of_mem (R : Nat → Nat → ℚ) (mol : List Conf) (c d : Conf)
    (hnd : (mol.map (fun c => c.id)).Nodup) (hc : c ∈ mol) (hd : d ∈ mol) :
    rmsdById R mol c.id d.id = R c.geom d.geom := by
  unfold rmsdById
  rw [geomById_of_mem mol c hnd hc, geomById_of_mem mol d hnd hd]

theorem reindex_length (l : List Conf) : (reindex l).length = l.length := by
  simp [reindex]

theorem reindex_map_id (l : List Conf) :
    (reindex l).map (fun c => c.id) = List.range l.length := by
  unfold reindex
  rw [List.map_map]
  exact List.enum_map_fst l

theorem reindex_map_geom (l : List Conf) :
    (reindex l).map (fun c => c.geom) = l.map (fun c => c.geom) := by
  unfold reindex
  rw [List.map_map]
  have h : ((fun c => c.geom) ∘ fun p : Nat × Conf => (⟨p.1, p.2.geom, p.2.energy⟩ : Conf)) =
      (fun c => c.geom) ∘ Prod.snd := rfl
  rw [h, ← List.map_map]
  rw [List.enum_map_snd l]

theorem reindex_map_energy (l : List Conf) :
    (reindex l).map (fun c => c.energy) = l.map (fun c => c.energy) := by
  unfold reindex
  rw [List.map_map]
  have h : ((fun c => c.energy) ∘ fun p : Nat × Conf => (⟨p.1, p.2.geom, p.2.energy⟩ : Conf)) =
      (fun c => c.energy) ∘ Prod.snd := rfl
  rw [h, ← List.map_map]
  rw [List.enum_map_snd l]

theorem reindex_getElem (l : List Conf) (i : Nat) (hi : i < l.length)
    (hi2 : i < (reindex l).length) :
    (reindex l)[i] = ⟨i, l[i].geom, l[i].energy⟩ := by
  unfold reindex
  simp

/-- Reindexing a list whose ids already are `0, 1, ...` is the identity. -/
theorem reindex_of_ids_range (l : List Conf)
    (h : l.map (fun c => c.id) = List.range l.length) : reindex l = l := by
  apply List.ext_getElem (reindex_length l)
  intro i h1 h2
  rw [reindex_getElem l i h2 h1]
  have hid : l[i].id = i := by
    have h3 := congrArg (fun t => t[i]?) h
    simp only [List.getElem?_map] at h3
    rw [List.getElem?_eq_getElem h2] at h3
    rw [List.getElem?_range h2] at h3
    simpa using h3
  conv_rhs => rw [show l[i] = (⟨l[i].id, l[i].geom, l[i].energy⟩ : Conf) from rfl]
  rw [hid]

theorem reindex_reindex (l : List Conf) : reindex (reindex l) = reindex l :=
  reindex_of_ids_range (reindex l) (by rw [reindex_map_id, reindex_length])

/-! ### The `remove_confs` pipeline under successful energy computation -/

theorem remove_confs_core_eq (R : Nat → Nat → ℚ) (en rms : Option ℚ) (mol : List Conf)
    (h : ∀ c ∈ mol, c.energy.isSome = true) (e0 : Nat × ℚ) (etail : List (Nat × ℚ))
    (hsort : sortE (fun p => p.2) (mol.map eKey) = e0 :: etail) :
    remove_confs_core R en rms mol =
      some (removedEnergyIds en e0 etail ++ rmsRemovedIds R rms mol (keptIds en e0 etail)) := by
  unfold remove_confs_core
  rw [collectEnergies_all_some mol h]
  simp only [hsort]

theorem survivors_eq_filter (R : Nat → Nat → ℚ) (en rms : Option ℚ) (mol : List Conf)
    (rem : List Nat) (h : remove_confs_core R en rms mol = some rem) :
    survivors R en rms mol = mol.filter (fun c => !(rem.contains c.id)) := by
  unfold survivors
  rw [h]

theorem remove_confs_eq_reindex_survivors (R : Nat → Nat → ℚ) (en rms : Option ℚ)
    (mol : List Conf) (rem : List Nat) (h : remove_confs_core R en rms mol = some rem) :
    remove_confs R en rms mol = reindex (survivors R en rms mol) := by
  unfold remove_confs
  rw [h, survivors_eq_filter R en rms mol rem h]

theorem sortE_eKey_ne_nil (mol : List Conf) (hne : mol ≠ []) :
    sortE (fun p => p.2) (mol.map eKey) ≠ [] := by
  intro h
  have := sortE_length (fun p : Nat × ℚ => p.2) (mol.map eKey)
  rw [h] at this
  simp only [List.length_nil, List.length_map] at this
  exact hne (List.length_eq_zero.mp this.symm)

theorem mem_sortE_eKey (mol : List Conf) (x : Nat × ℚ) :
    x ∈ sortE (fun p => p.2) (mol.map eKey) ↔ ∃ c ∈ mol, eKey c = x := by
  rw [mem_sortE]
  simp [List.mem_map]

/-- Id distinctness survives to the sorted energy list. -/
theorem sortE_eKey_ids_nodup (mol : List Conf)
    (hnd : (mol.map (fun c => c.id)).Nodup) :
    ((sortE (fun p => p.2) (mol.map eKey)).map (fun p => p.1)).Nodup := by
  have hperm : ((sortE (fun p => p.2) (mol.map eKey)).map (fun p : Nat × ℚ => p.1)).Perm
      ((mol.map eKey).map (fun p : Nat × ℚ => p.1)) :=
    (sortE_perm (fun p : Nat × ℚ => p.2) (mol.map eKey)).map _
  have heq : (mol.map eKey).map (fun p : Nat × ℚ => p.1) = mol.map (fun c => c.id) := by
    rw [List.map_map]
    rfl
  rw [hperm.nodup_iff, heq]
  exact hnd

theorem not_contains_iff (l : List Nat) (x : Nat) :
    ((!(l.contains x)) = true) ↔ x ∉ l := by
  simp

theorem mem_survivors_iff (R : Nat → Nat → ℚ) (en rms : Option ℚ) (mol : List Conf)
    (rem : List Nat) (h : remove_confs_core R en rms mol = some rem) (c : Conf) :
    c ∈ survivors R en rms mol ↔ c ∈ mol ∧ c.id ∉ rem := by
  rw [survivors_eq_filter R en rms mol rem h, List.mem_filter, not_contains_iff]

theorem keptIds_cons (en : Option ℚ) (e0 : Nat × ℚ) (etail : List (Nat × ℚ)) :
    ∃ kt, keptIds en e0 etail = e0.1 :: kt ∧
      ∀ x ∈ kt, x ∈ etail.map (fun it => it.1) := by
  cases en with
  | none => exact ⟨[], rfl, by simp⟩
  | some en =>
    refine ⟨_, rfl, ?_⟩
    intro x hx
    obtain ⟨it, hit, rfl⟩ := List.mem_map.mp hx
    exact List.mem_map_of_mem _ (List.mem_of_mem_filter hit)

theorem removedEnergyIds_subset (en : Option ℚ) (e0 : Nat × ℚ) (etail : List (Nat × ℚ)) :
    ∀ x ∈ removedEnergyIds en e0 etail, x ∈ etail.map (fun it => it.1) := by
  intro x hx
  cases en with
  | none => cases hx
  | some en =>
    obtain ⟨it, hit, rfl⟩ := List.mem_map.mp hx
    exact List.mem_map_of_mem _ (List.mem_of_mem_filter hit)

theorem rmsRemovedIds_are_seconds (R : Nat → Nat → ℚ) (rms : Option ℚ) (mol : List Conf)
    (kept : List Nat) :
    ∀ x ∈ rmsRemovedIds R rms mol kept, ∃ q : Nat × Nat, q ∈ pairsOf kept ∧ q.2 = x := by
  intro x hx
  cases rms with
  | none => cases hx
  | some r =>
    obtain ⟨p, hp, hps⟩ := pruneRms_removed_are_seconds r _ x hx
    obtain ⟨q, hq, hqe⟩ := List.mem_map.mp hp
    refine ⟨q, hq, ?_⟩
    rw [← hps, ← hqe]

/-- The first entry of the energy-sorted list is never in the removal set. -/
theorem head_not_removed (R : Nat → Nat → ℚ) (en rms : Option ℚ) (mol : List Conf)
    (hnd : (mol.map (fun c => c.id)).Nodup) (e0 : Nat × ℚ) (etail : List (Nat × ℚ))
    (hsort : sortE (fun p => p.2) (mol.map eKey) = e0 :: etail) :
    e0.1 ∉ removedEnergyIds en e0 etail ++
      rmsRemovedIds R rms mol (keptIds en e0 etail) := by
  have hnd' := sortE_eKey_ids_nodup mol hnd
  rw [hsort, List.map_cons, List.nodup_cons] at hnd'
  have htail : e0.1 ∉ etail.map (fun p : Nat × ℚ => p.1) := hnd'.1
  intro hx
  rcases List.mem_append.mp hx with hx | hx
  · exact htail (removedEnergyIds_subset en e0 etail e0.1 hx)
  · obtain ⟨q, hq, hq2⟩ := rmsRemovedIds_are_seconds R rms mol _ e0.1 hx
    obtain ⟨kt, hkt, hsub⟩ := keptIds_cons en e0 etail
    rw [hkt] at hq
    have := snd_mem_tail_of_mem_pairsOf q.1 q.2 e0.1 kt (by simpa using hq)
    exact htail (hq2 ▸ hsub q.2 this)

/-- **C7.** For every molecule whose conformer energies are all computable
and every energy/rms setting, the conformer ids after `remove_confs` are
exactly `0, 1, …, k-1` where `k` is the surviving count (in list order,
which is stronger than the set statement of the claim). -/
theorem C7_reindexed_ids_contiguous (R : Nat → Nat → ℚ) (en rms : Option ℚ)
    (mol : List Conf) (h : ∀ c ∈ mol, c.energy.isSome = true) :
    (remove_confs R en rms mol).map (fun c => c.id) =
      List.range (remove_confs R en rms mol).length := by
  by_cases hne : mol = []
  · subst hne
    rfl
  · obtain ⟨e0, etail, hsort⟩ : ∃ e0 etail,
        sortE (fun p => p.2) (mol.map eKey) = e0 :: etail := by
      rcases hs : sortE (fun p : Nat × ℚ => p.2) (mol.map eKey) with _ | ⟨e0, etail⟩
      · exact absurd hs (sortE_eKey_ne_nil mol hne)
      · exact ⟨e0, etail, rfl⟩
    have hcore := remove_confs_core_eq R en rms mol h e0 etail hsort
    rw [remove_confs_eq_reindex_survivors R en rms mol _ hcore]
    rw [reindex_map_id, reindex_length]

theorem C7_reindexed_ids_contiguous_witness :
    (∀ c ∈ [(⟨5, 0, some 2⟩ : Conf), ⟨3, 1, some 1⟩], c.energy.isSome = true) ∧
    (remove_confs (fun _ _ => 0) (some 1) (some 1)
        [(⟨5, 0, some 2⟩ : Conf), ⟨3, 1, some 1⟩]).map (fun c => c.id) =
      List.range (remove_confs (fun _ _ => 0) (some 1) (some 1)
        [(⟨5, 0, some 2⟩ : Conf), ⟨3, 1, some 1⟩]).length :=
  ⟨by decide, C7_reindexed_ids_contiguous (fun _ _ => 0) (some 1) (some 1)
    [⟨5, 0, some 2⟩, ⟨3, 1, some 1⟩] (by decide)⟩

/-- **C9.** The minimum-energy conformer (the head of the stable
energy-sorted list) always survives the pruning, whatever the energy and
rms settings; `remove_confs` only reindexes it. -/
theorem C9_min_energy_conformer_survives (R : Nat → Nat → ℚ) (en rms : Option ℚ)
    (mol : List Conf) (h : ∀ c ∈ mol, c.energy.isSome = true)
    (hnd : (mol.map (fun c => c.id)).Nodup) (e0 : Nat × ℚ) (etail : List (Nat × ℚ))
    (hsort : sortE (fun p => p.2) (mol.map eKey) = e0 :: etail) :
    (∃ c ∈ mol, c.id = e0.1 ∧ val c = e0.2 ∧ c ∈ survivors R en rms mol) ∧
      remove_confs R en rms mol = reindex (survivors R en rms mol) := by
  have hcore := remove_confs_core_eq R en rms mol h e0 etail hsort
  have he0 : e0 ∈ sortE (fun p : Nat × ℚ => p.2) (mol.map eKey) := by
    rw [hsort]; simp
  obtain ⟨c, hc, hck⟩ := (mem_sortE_eKey mol e0).mp he0
  have hcid : c.id = e0.1 := by rw [← hck]; rfl
  have hcval : val c = e0.2 := by rw [← hck]; rfl
  refine ⟨⟨c, hc, hcid, hcval, ?_⟩,
    remove_confs_eq_reindex_survivors R en rms mol _ hcore⟩
  rw [mem_survivors_iff R en rms mol _ hcore]
  refine ⟨hc, ?_⟩
  rw [hcid]
  exact head_not_removed R en rms mol hnd e0 etail hsort

theorem C9_min_energy_conformer_survives_witness :
    ((∃ c ∈ [(⟨5, 0, some 2⟩ : Conf), ⟨3, 1, some 1⟩], c.id = 3 ∧ val c = 1 ∧
        c ∈ survivors (fun _ _ => 0) (some 0) (some 1)
          [(⟨5, 0, some 2⟩ : Conf), ⟨3, 1, some 1⟩]) ∧
      remove_confs (fun _ _ => 0) (some 0) (some 1)
          [(⟨5, 0, some 2⟩ : Conf), ⟨3, 1, some 1⟩] =
        reindex (survivors (fun _ _ => 0) (some 0) (some 1)
          [(⟨5, 0, some 2⟩ : Conf), ⟨3, 1, some 1⟩])) :=
  C9_min_energy_conformer_survives (fun _ _ => 0) (some 0) (some 1)
    [⟨5, 0, some 2⟩, ⟨3, 1, some 1⟩] (by decide) (by decide) (3, 1)
    [(5, 2)] (by decide)

/-! ### Correspondence between sorted energy entries and conformers -/

theorem conf_eq_of_id_eq (mol : List Conf) (hnd : (mol.map (fun c => c.id)).Nodup)
    (c d : Conf) (hc : c ∈ mol) (hd : d ∈ mol) (h : c.id = d.id) : c = d :=
  List.inj_on_of_nodup_map hnd hc hd h

theorem entry_mem_iff (mol : List Conf) (e0 : Nat × ℚ) (etail : List (Nat × ℚ))
    (hsort : sortE (fun p => p.2) (mol.map eKey) = e0 :: etail) (x : Nat × ℚ) :
    x ∈ e0 :: etail ↔ ∃ c ∈ mol, eKey c = x := by
  rw [← hsort]
  exact mem_sortE_eKey mol x

theorem entry_val_of_id (mol : List Conf) (hnd : (mol.map (fun c => c.id)).Nodup)
    (e0 : Nat × ℚ) (etail : List (Nat × ℚ))
    (hsort : sortE (fun p => p.2) (mol.map eKey) = e0 :: etail)
    (c : Conf) (hc : c ∈ mol) (v : ℚ) (hx : (c.id, v) ∈ e0 :: etail) : v = val c := by
  obtain ⟨d, hd, hde⟩ := (entry_mem_iff mol e0 etail hsort (c.id, v)).mp hx
  have h1 : d.id = c.id := congrArg Prod.fst hde
  have h2 : val d = v := congrArg Prod.snd hde
  rw [← h2, conf_eq_of_id_eq mol hnd d c hd hc h1]

/-- When the energy cutoff is set, every survivor's id is in `kept_ids`. -/
theorem survivor_id_in_kept (R : Nat → Nat → ℚ) (en : ℚ) (rms : Option ℚ)
    (mol : List Conf) (h_some : ∀ c ∈ mol, c.energy.isSome = true)
    (e0 : Nat × ℚ) (etail : List (Nat × ℚ))
    (hsort : sortE (fun p => p.2) (mol.map eKey) = e0 :: etail)
    (c : Conf) (hcs : c ∈ survivors R (some en) rms mol) :
    c.id ∈ keptIds (some en) e0 etail := by
  have hcore := remove_confs_core_eq R (some en) rms mol h_some e0 etail hsort
  obtain ⟨hc, hrem⟩ := (mem_survivors_iff R (some en) rms mol _ hcore c).mp hcs
  have hce : (c.id, val c) ∈ e0 :: etail :=
    (entry_mem_iff mol e0 etail hsort (c.id, val c)).mpr ⟨c, hc, rfl⟩
  rcases List.mem_cons.mp hce with h | h
  · have : c.id = e0.1 := congrArg Prod.fst h
    rw [this]
    obtain ⟨kt, hkt, _⟩ := keptIds_cons (some en) e0 etail
    rw [hkt]
    exact List.mem_cons_self _ _
  · by_cases hcond : val c - e0.2 ≤ en
    · show c.id ∈ e0.1 :: (etail.filter (fun it => decide (it.2 - e0.2 ≤ en))).map
        (fun it => it.1)
      refine List.mem_cons_of_mem _ ?_
      have : ((c.id, val c) : Nat × ℚ) ∈
          etail.filter (fun it => decide (it.2 - e0.2 ≤ en)) :=
        List.mem_filter.mpr ⟨h, by simpa using hcond⟩
      exact List.mem_map_of_mem _ this
    · exfalso
      apply hrem
      refine List.mem_append_left _ ?_
      show c.id ∈ (etail.filter (fun it => !decide (it.2 - e0.2 ≤ en))).map
        (fun it => it.1)
      have : ((c.id, val c) : Nat × ℚ) ∈
          etail.filter (fun it => !decide (it.2 - e0.2 ≤ en)) :=
        List.mem_filter.mpr ⟨h, by simpa using hcond⟩
      exact List.mem_map_of_mem _ this

theorem keptIds_nodup (en : Option ℚ) (mol : List Conf)
    (hnd : (mol.map (fun c => c.id)).Nodup) (e0 : Nat × ℚ) (etail : List (Nat × ℚ))
    (hsort : sortE (fun p => p.2) (mol.map eKey) = e0 :: etail) :
    (keptIds en e0 etail).Nodup := by
  have hnd' := sortE_eKey_ids_nodup mol hnd
  rw [hsort, List.map_cons] at hnd'
  have hsub : (keptIds en e0 etail).Sublist
      (e0.1 :: etail.map (fun p : Nat × ℚ => p.1)) := by
    cases en with
    | none =>
      show [e0.1].Sublist _
      exact (List.nil_sublist _).cons₂ e0.1
    | some en =>
      show (e0.1 :: (etail.filter (fun it => decide (it.2 - e0.2 ≤ en))).map
        (fun it => it.1)).Sublist _
      exact ((List.filter_sublist _).map _).cons₂ e0.1
  exact hsub.nodup hnd'

theorem mem_reindex_iff (l : List Conf) (c : Conf) :
    c ∈ reindex l ↔ ∃ i, ∃ h : i < l.length, c = ⟨i, l[i].geom, l[i].energy⟩ := by
  unfold reindex
  rw [List.mem_map]
  constructor
  · rintro ⟨p, hp, rfl⟩
    have := List.mem_enum_iff_getElem?.mp hp
    have hlt : p.1 < l.length := by
      by_contra hge
      rw [List.getElem?_eq_none (by omega)] at this
      cases this
    refine ⟨p.1, hlt, ?_⟩
    rw [List.getElem?_eq_getElem hlt] at this
    have hp2 : p.2 = l[p.1] := by
      injection this with h
      exact h.symm
    rw [hp2]
  · rintro ⟨i, hlt, rfl⟩
    refine ⟨(i, l[i]), ?_, rfl⟩
    rw [List.mem_enum_iff_getElem?]
    exact List.getElem?_eq_getElem hlt

theorem survivors_sublist (R : Nat → Nat → ℚ) (en rms : Option ℚ) (mol : List Conf) :
    (survivors R en rms mol).Sublist mol := by
  unfold survivors
  cases remove_confs_core R en rms mol with
  | none => exact List.Sublist.refl mol
  | some rem => exact List.filter_sublist mol

theorem survivors_ids_nodup (R : Nat → Nat → ℚ) (en rms : Option ℚ) (mol : List Conf)
    (hnd : (mol.map (fun c => c.id)).Nodup) :
    ((survivors R en rms mol).map (fun c => c.id)).Nodup :=
  ((survivors_sublist R en rms mol).map _).nodup hnd

/-! ### Claim C3: the RMS-threshold guarantee -/

/-- **C3, counterexample.**  With the rms threshold set but the energy
cutoff unset, `kept_ids` holds only the minimum-energy conformer, the pair
list is empty, and nothing at all is pruned: two conformers at RMS
dissimilarity `0 < 1` both survive. -/
theorem C3_counterexample :
    remove_confs (fun _ _ => 0) none (some 1)
        [(⟨0, 10, some 0⟩ : Conf), ⟨1, 11, some 0⟩] =
      [(⟨0, 10, some 0⟩ : Conf), ⟨1, 11, some 0⟩] ∧
    (⟨0, 10, some 0⟩ : Conf) ∈ remove_confs (fun _ _ => 0) none (some 1)
        [(⟨0, 10, some 0⟩ : Conf), ⟨1, 11, some 0⟩] ∧
    (⟨1, 11, some 0⟩ : Conf) ∈ remove_confs (fun _ _ => 0) none (some 1)
        [(⟨0, 10, some 0⟩ : Conf), ⟨1, 11, some 0⟩] ∧
    (⟨0, 10, some 0⟩ : Conf) ≠ (⟨1, 11, some 0⟩ : Conf) ∧
    (fun _ _ => (0 : ℚ)) 10 11 < 1 := by
  decide

/-- **C3, amended.**  The guarantee holds only when the energy cutoff is
set.  (1) With the cutoff unset, `survivors` is the whole conformer list —
the rms stage sees a single kept id and removes nothing.  (2) With the
cutoff set, no two distinct survivors (equivalently, no two conformers of
the returned molecule) are below the rms threshold, assuming the RMS
measure is symmetric. -/
theorem C3_rms_guarantee_amended (R : Nat → Nat → ℚ) (hsymm : ∀ a b, R a b = R b a) :
    (∀ (rms : Option ℚ) (mol : List Conf), survivors R none rms mol = mol) ∧
    (∀ (en r : ℚ) (mol : List Conf),
      (∀ c ∈ mol, c.energy.isSome = true) →
      ((mol.map (fun c => c.id)).Nodup) →
      (∀ c ∈ survivors R (some en) (some r) mol,
       ∀ d ∈ survivors R (some en) (some r) mol,
        c ≠ d → ¬(R c.geom d.geom < r)) ∧
      (∀ c ∈ remove_confs R (some en) (some r) mol,
       ∀ d ∈ remove_confs R (some en) (some r) mol,
        c.id ≠ d.id → ¬(R c.geom d.geom < r))) := by
  constructor
  · intro rms mol
    rcases hcore : remove_confs_core R none rms mol with _ | rem
    · unfold survivors
      rw [hcore]
    · have hrem : rem = [] := by
        unfold remove_confs_core at hcore
        split at hcore
        · cases hcore
        · split at hcore
          · cases hcore
          · injection hcore with h
            rw [← h]
            cases rms with
            | none => rfl
            | some r => rfl
      rw [survivors_eq_filter R none rms mol rem hcore, hrem]
      have h2 : (fun c : Conf => !(List.contains ([] : List Nat) c.id)) =
          (fun _ : Conf => true) := rfl
      rw [h2, List.filter_true]
  · intro en r mol h_some hnd
    by_cases hne : mol = []
    · subst hne
      constructor
      · intro c hc
        simp [survivors, remove_confs_core, collectEnergies, sortE] at hc
      · intro c hc
        simp [remove_confs, remove_confs_core, collectEnergies, sortE] at hc
    · obtain ⟨e0, etail, hsort⟩ : ∃ e0 etail,
          sortE (fun p : Nat × ℚ => p.2) (mol.map eKey) = e0 :: etail := by
        rcases hs : sortE (fun p : Nat × ℚ => p.2) (mol.map eKey) with _ | ⟨e0, etail⟩
        · exact absurd hs (sortE_eKey_ne_nil mol hne)
        · exact ⟨e0, etail, rfl⟩
      have hcore := remove_confs_core_eq R (some en) (some r) mol h_some e0 etail hsort
      have hmain : ∀ c ∈ survivors R (some en) (some r) mol,
          ∀ d ∈ survivors R (some en) (some r) mol,
          c ≠ d → ¬(R c.geom d.geom < r) := by
        intro c hcs d hds hne'
        obtain ⟨hc, hcrem⟩ :=
          (mem_survivors_iff R (some en) (some r) mol _ hcore c).mp hcs
        obtain ⟨hd, hdrem⟩ :=
          (mem_survivors_iff R (some en) (some r) mol _ hcore d).mp hds
        have hidne : c.id ≠ d.id := by
          intro he
          exact hne' (conf_eq_of_id_eq mol hnd c d hc hd he)
        have hkc := survivor_id_in_kept R en (some r) mol h_some e0 etail hsort c hcs
        have hkd := survivor_id_in_kept R en (some r) mol h_some e0 etail hsort d hds
        set kept := keptIds (some en) e0 etail with hkdef
        have hsub_rem : ∀ x ∈ (pruneRms r (rmsList R mol kept)).2,
            x ∈ removedEnergyIds (some en) e0 etail ++
              rmsRemovedIds R (some r) mol kept := by
          intro x hx
          exact List.mem_append_right _ hx
        have key : ∀ a b : Nat, (a, b) ∈ pairsOf kept →
            a ∉ (pruneRms r (rmsList R mol kept)).2 →
            b ∉ (pruneRms r (rmsList R mol kept)).2 →
            ¬(rmsdById R mol a b < r) := by
          intro a b hpair ha hb
          have hmem : ((a, b, rmsdById R mol a b) : Nat × Nat × ℚ) ∈
              rmsList R mol kept := by
            unfold rmsList
            exact List.mem_map_of_mem _ hpair
          have hfin := pruneRms_mem_result r (rmsList R mol kept)
            (a, b, rmsdById R mol a b) hmem ha hb
          exact pruneRms_no_viol r (rmsList R mol kept) _ hfin
        rcases mem_pairsOf_or_swap c.id d.id kept hkc hkd hidne with hpair | hpair
        · have := key c.id d.id hpair
            (fun hx => hcrem (hsub_rem _ hx)) (fun hx => hdrem (hsub_rem _ hx))
          rw [rmsdById_of_mem R mol c d hnd hc hd] at this
          exact this
        · have := key d.id c.id hpair
            (fun hx => hdrem (hsub_rem _ hx)) (fun hx => hcrem (hsub_rem _ hx))
          rw [rmsdById_of_mem R mol d c hnd hd hc] at this
          rw [hsymm]
          exact this
      refine ⟨hmain, ?_⟩
      intro c hc d hd hidne
      rw [remove_confs_eq_reindex_survivors R (some en) (some r) mol _ hcore] at hc hd
      set S := survivors R (some en) (some r) mol with hSdef
      obtain ⟨i, hilt, rfl⟩ := (mem_reindex_iff S c).mp hc
      obtain ⟨j, hjlt, rfl⟩ := (mem_reindex_iff S d).mp hd
      have hij : i ≠ j := by simpa using hidne
      have hSne : S[i] ≠ S[j] := by
        intro he
        apply hij
        have hnodS := survivors_ids_nodup R (some en) (some r) mol hnd
        apply (@List.Nodup.getElem_inj_iff _ (S.map (fun c => c.id)) hnodS i
          (by simpa using hilt) j (by simpa using hjlt)).mp
        rw [List.getElem_map, List.getElem_map]
        rw [he]
      have := hmain S[i] (List.getElem_mem hilt) S[j] (List.getElem_mem hjlt) hSne
      simpa using this

theorem C3_rms_guarantee_amended_witness :
    (survivors (fun _ _ => (5 : ℚ)) none (some 1)
        [(⟨0, 10, some 0⟩ : Conf), ⟨1, 11, some 0⟩] =
      [(⟨0, 10, some 0⟩ : Conf), ⟨1, 11, some 0⟩]) ∧
    (∀ c ∈ survivors (fun _ _ => (5 : ℚ)) (some 10) (some 1)
        [(⟨0, 10, some 0⟩ : Conf), ⟨1, 11, some 3⟩],
     ∀ d ∈ survivors (fun _ _ => (5 : ℚ)) (some 10) (some 1)
        [(⟨0, 10, some 0⟩ : Conf), ⟨1, 11, some 3⟩],
      c ≠ d → ¬((fun _ _ => (5 : ℚ)) c.geom d.geom < 1)) :=
  ⟨(C3_rms_guarantee_amended (fun _ _ => (5 : ℚ)) (fun _ _ => rfl)).1 (some 1)
      [⟨0, 10, some 0⟩, ⟨1, 11, some 0⟩],
   ((C3_rms_guarantee_amended (fun _ _ => (5 : ℚ)) (fun _ _ => rfl)).2 10 1
      [⟨0, 10, some 0⟩, ⟨1, 11, some 3⟩] (by decide) (by decide)).1⟩

/-! ### Claim C4: the `energy = 0` cutoff -/

unseal Rat.sub in
/-- **C4, counterexample.**  With `energy = 0` and two conformers tied at
the minimum energy, the cutoff test `item[1] - e[0][1] <= 0` keeps the tied
conformer too: the output has two conformers, not one. -/
theorem C4_counterexample :
    remove_confs (fun _ _ => 0) (some 0) none
        [(⟨0, 10, some 0⟩ : Conf), ⟨1, 11, some 0⟩] =
      [(⟨0, 10, some 0⟩ : Conf), ⟨1, 11, some 0⟩] ∧
    (remove_confs (fun _ _ => 0) (some 0) none
        [(⟨0, 10, some 0⟩ : Conf), ⟨1, 11, some 0⟩]).length ≠ 1 := by
  decide

/-- **C4, amended.**  With `energy = 0` and `rms` unset, `remove_confs`
keeps exactly the conformers whose energy equals the global minimum `m`
(all ties included), removes all others, and reindexes the survivors. -/
theorem C4_energy_zero_amended (R : Nat → Nat → ℚ) (mol : List Conf)
    (h_some : ∀ c ∈ mol, c.energy.isSome = true)
    (hnd : (mol.map (fun c => c.id)).Nodup) (hlen : 2 ≤ mol.length)
    (m : ℚ) (c0 : Conf) (hc0 : c0 ∈ mol) (hc0v : val c0 = m)
    (hm_min : ∀ c ∈ mol, m ≤ val c) :
    survivors R (some 0) none mol = mol.filter (fun c => decide (val c = m)) ∧
    remove_confs R (some 0) none mol =
      reindex (mol.filter (fun c => decide (val c = m))) := by
  have hne : mol ≠ [] := by
    intro h
    rw [h] at hlen
    simp at hlen
  obtain ⟨e0, etail, hsort⟩ : ∃ e0 etail,
      sortE (fun p : Nat × ℚ => p.2) (mol.map eKey) = e0 :: etail := by
    rcases hs : sortE (fun p : Nat × ℚ => p.2) (mol.map eKey) with _ | ⟨e0, etail⟩
    · exact absurd hs (sortE_eKey_ne_nil mol hne)
    · exact ⟨e0, etail, rfl⟩
  have hcore := remove_confs_core_eq R (some 0) none mol h_some e0 etail hsort
  have hrms_nil : rmsRemovedIds R none mol (keptIds (some 0) e0 etail) = [] := rfl
  rw [hrms_nil, List.append_nil] at hcore
  have he0m : e0.2 = m := by
    have h1 : m ≤ e0.2 := by
      obtain ⟨c, hc, hck⟩ := (entry_mem_iff mol e0 etail hsort e0).mp (by simp)
      have : val c = e0.2 := congrArg Prod.snd hck
      rw [← this]
      exact hm_min c hc
    have h2 : e0.2 ≤ m := by
      have h3 : e0.2 ≤ val c0 := sortE_head_min (fun p : Nat × ℚ => p.2) (mol.map eKey)
        e0 etail hsort (eKey c0) (List.mem_map_of_mem _ hc0)
      rw [hc0v] at h3
      exact h3
    exact le_antisymm h2 h1
  have hiff : ∀ c ∈ mol, (c.id ∈ removedEnergyIds (some 0) e0 etail ↔ val c ≠ m) := by
    intro c hc
    constructor
    · intro hx
      obtain ⟨it, hit, hit1⟩ := List.mem_map.mp hx
      have hittail : it ∈ etail := List.mem_of_mem_filter hit
      have hcond := (List.mem_filter.mp hit).2
      have hgt : ¬(it.2 - e0.2 ≤ 0) := by simpa using hcond
      have hitc : it = (c.id, it.2) := by
        rw [← hit1]
      have hval : it.2 = val c := by
        apply entry_val_of_id mol hnd e0 etail hsort c hc it.2
        exact List.mem_cons_of_mem e0 (hitc ▸ hittail)
      rw [hval, he0m] at hgt
      intro hvm
      exact hgt (by rw [hvm]; simp)
    · intro hvm
      have hgt : m < val c := lt_of_le_of_ne (hm_min c hc) (fun h => hvm h.symm)
      have hce : (c.id, val c) ∈ e0 :: etail :=
        (entry_mem_iff mol e0 etail hsort (c.id, val c)).mpr ⟨c, hc, rfl⟩
      rcases List.mem_cons.mp hce with h | h
      · exfalso
        have : val c = e0.2 := congrArg Prod.snd h
        rw [he0m] at this
        exact hvm this
      · show c.id ∈ (etail.filter (fun it => !decide (it.2 - e0.2 ≤ 0))).map
          (fun it => it.1)
        have hmem : ((c.id, val c) : Nat × ℚ) ∈
            etail.filter (fun it => !decide (it.2 - e0.2 ≤ 0)) := by
          refine List.mem_filter.mpr ⟨h, ?_⟩
          have : ¬(val c - e0.2 ≤ 0) := by
            rw [he0m]
            intro hle
            exact absurd (sub_nonpos.mp hle) (not_le.mpr hgt)
          simpa using this
        exact List.mem_map_of_mem _ hmem
  have hfeq : mol.filter (fun c => !((removedEnergyIds (some 0) e0 etail).contains c.id)) =
      mol.filter (fun c => decide (val c = m)) := by
    apply List.filter_congr
    intro c hc
    by_cases hvm : val c = m
    · have hnotin : c.id ∉ removedEnergyIds (some 0) e0 etail :=
        fun hx => ((hiff c hc).mp hx) hvm
      simp [hvm, hnotin]
    · have hin : c.id ∈ removedEnergyIds (some 0) e0 etail := (hiff c hc).mpr hvm
      simp [hvm, hin]
  constructor
  · rw [survivors_eq_filter R (some 0) none mol _ hcore]
    exact hfeq
  · rw [remove_confs_eq_reindex_survivors R (some 0) none mol _ hcore,
      survivors_eq_filter R (some 0) none mol _ hcore, hfeq]

unseal Rat.sub in
theorem C4_energy_zero_amended_witness :
    survivors (fun _ _ => (0 : ℚ)) (some 0) none
        [(⟨0, 10, some 2⟩ : Conf), ⟨1, 11, some 1⟩, ⟨2, 12, some 1⟩] =
      List.filter (fun c => decide (val c = 1))
        [(⟨0, 10, some 2⟩ : Conf), ⟨1, 11, some 1⟩, ⟨2, 12, some 1⟩] ∧
    remove_confs (fun _ _ => (0 : ℚ)) (some 0) none
        [(⟨0, 10, some 2⟩ : Conf), ⟨1, 11, some 1⟩, ⟨2, 12, some 1⟩] =
      reindex (List.filter (fun c => decide (val c = 1))
        [(⟨0, 10, some 2⟩ : Conf), ⟨1, 11, some 1⟩, ⟨2, 12, some 1⟩]) :=
  C4_energy_zero_amended (fun _ _ => (0 : ℚ))
    [⟨0, 10, some 2⟩, ⟨1, 11, some 1⟩, ⟨2, 12, some 1⟩]
    (by decide) (by decide) (by decide) 1 ⟨1, 11, some 1⟩ (by decide) (by decide)
    (by decide)

/-! ### Helper lemmas for idempotence (claim C6) -/

/-- Filtering commutes with mapping. -/
theorem filter_map_comm {α β : Type} (f : α → β) (p : β → Bool) (l : List α) :
    (l.map f).filter p = (l.filter (fun a => p (f a))).map f := by
  induction l with
  | nil => rfl
  | cons x xs ih =>
    rw [List.map_cons, List.filter_cons, List.filter_cons]
    by_cases hx : p (f x)
    · rw [if_pos hx, if_pos hx, List.map_cons, ih]
    · rw [if_neg hx, if_neg hx, ih]

/-- On a duplicate-free list, the filtered list is a sublist of any
sublist that contains all elements satisfying the predicate. -/
theorem filter_sublist_of_superset {α : Type} (p : α → Bool) :
    ∀ (l l' : List α), l.Nodup → l'.Sublist l →
      (∀ x ∈ l, p x = true → x ∈ l') → (l.filter p).Sublist l' := by
  intro l
  induction l with
  | nil =>
    intro l' _ hsub _
    rw [List.sublist_nil.mp hsub]
    exact List.Sublist.refl _
  | cons x t ih =>
    intro l' hnd hsub hall
    rw [List.nodup_cons] at hnd
    rw [List.filter_cons]
    by_cases hx : p x
    · rw [if_pos hx]
      have hxl' : x ∈ l' := hall x (by simp) hx
      obtain ⟨t', rfl, hsubt⟩ : ∃ t', l' = x :: t' ∧ t'.Sublist t := by
        cases hsub with
        | cons _ hs => exact absurd (hs.subset hxl') hnd.1
        | cons₂ _ hs =>
          exact ⟨_, rfl, hs⟩
      refine (ih t' hnd.2 hsubt ?_).cons₂ x
      intro y hy hpy
      have hyl' : y ∈ x :: t' := hall y (by simp [hy]) hpy
      rcases List.mem_cons.mp hyl' with h | h
      · exact absurd (h ▸ hy) hnd.1
      · exact h
    · rw [if_neg hx]
      cases hsub with
      | cons _ hs =>
        exact ih l' hnd.2 hs (fun y hy hpy => hall y (by simp [hy]) hpy)
      | cons₂ _ hs =>
        refine (ih _ hnd.2 hs ?_).cons x
        intro y hy hpy
        have hyl' : y ∈ x :: _ := hall y (by simp [hy]) hpy
        rcases List.mem_cons.mp hyl' with h | h
        · exact absurd (h ▸ hy) hnd.1
        · exact h

theorem keptIds_sublist (en : Option ℚ) (e0 : Nat × ℚ) (etail : List (Nat × ℚ)) :
    (keptIds en e0 etail).Sublist (e0.1 :: etail.map (fun p : Nat × ℚ => p.1)) := by
  cases en with
  | none =>
    show [e0.1].Sublist _
    exact (List.nil_sublist _).cons₂ e0.1
  | some en =>
    show (e0.1 :: (etail.filter (fun it => decide (it.2 - e0.2 ≤ en))).map
      (fun it => it.1)).Sublist _
    exact ((List.filter_sublist _).map _).cons₂ e0.1

/-- The minimum-energy conformer survives, with its id and value. -/
theorem min_survivor (R : Nat → Nat → ℚ) (en rms : Option ℚ) (mol : List Conf)
    (h_some : ∀ c ∈ mol, c.energy.isSome = true)
    (hnd : (mol.map (fun c => c.id)).Nodup) (e0 : Nat × ℚ) (etail : List (Nat × ℚ))
    (hsort : sortE (fun p => p.2) (mol.map eKey) = e0 :: etail) :
    ∃ c, c ∈ survivors R en rms mol ∧ c.id = e0.1 ∧ val c = e0.2 := by
  have hcore := remove_confs_core_eq R en rms mol h_some e0 etail hsort
  have he0 : e0 ∈ sortE (fun p : Nat × ℚ => p.2) (mol.map eKey) := by
    rw [hsort]; simp
  obtain ⟨c, hc, hck⟩ := (mem_sortE_eKey mol e0).mp he0
  refine ⟨c, ?_, congrArg Prod.fst hck, congrArg Prod.snd hck⟩
  rw [mem_survivors_iff R en rms mol _ hcore]
  refine ⟨hc, ?_⟩
  have hid : c.id = e0.1 := congrArg Prod.fst hck
  rw [hid]
  exact head_not_removed R en rms mol hnd e0 etail hsort

/-- Every value of a reindexed survivor comes from a survivor. -/
theorem reindex_mem_val (S : List Conf) (c' : Conf) (h : c' ∈ reindex S) :
    ∃ c ∈ S, val c' = val c ∧ c'.geom = c.geom := by
  obtain ⟨i, hlt, rfl⟩ := (mem_reindex_iff S c').mp h
  exact ⟨S[i], List.getElem_mem hlt, rfl, rfl⟩

/-- Every survivor value reappears in the reindexed list. -/
theorem exists_reindex_val (S : List Conf) (c : Conf) (h : c ∈ S) :
    ∃ c' ∈ reindex S, val c' = val c := by
  obtain ⟨i, hlt, hgi⟩ := List.mem_iff_getElem.mp h
  refine ⟨⟨i, S[i].geom, S[i].energy⟩, (mem_reindex_iff S _).mpr ⟨i, hlt, rfl⟩, ?_⟩
  show S[i].energy.getD 0 = val c
  rw [hgi]
  rfl

theorem exists_ne_id_of_two (S : List Conf) (hnd : (S.map (fun c => c.id)).Nodup)
    (h2 : 2 ≤ S.length) (x : Nat) : ∃ d ∈ S, d.id ≠ x := by
  have h0 : 0 < S.length := by omega
  have h1 : 1 < S.length := by omega
  by_cases hS0 : S[0].id = x
  · refine ⟨S[1], List.getElem_mem h1, ?_⟩
    intro he
    have hid2 : S[0].id = S[1].id := by rw [hS0, he]
    have h01 : (0 : Nat) = 1 := by
      apply (@List.Nodup.getElem_inj_iff _ (S.map (fun c => c.id)) hnd 0
        (by simpa using h0) 1 (by simpa using h1)).mp
      rw [List.getElem_map, List.getElem_map]
      exact hid2
    cases h01
  · exact ⟨S[0], List.getElem_mem h0, hS0⟩

/-- Energies survive reindexing. -/
theorem reindex_energy_some (S : List Conf) (mol : List Conf)
    (hsub : S.Sublist mol) (h_some : ∀ c ∈ mol, c.energy.isSome = true) :
    ∀ c' ∈ reindex S, c'.energy.isSome = true := by
  intro c' hc'
  obtain ⟨i, hlt, rfl⟩ := (mem_reindex_iff S c').mp hc'
  exact h_some S[i] (hsub.subset (List.getElem_mem hlt))

/-- Survivor energies obey the cutoff: each survivor is either the sorted
head itself or within `en` of it. -/
theorem survivor_val_bound (R : Nat → Nat → ℚ) (en : ℚ) (rms : Option ℚ)
    (mol : List Conf) (h_some : ∀ c ∈ mol, c.energy.isSome = true)
    (hnd : (mol.map (fun c => c.id)).Nodup) (e0 : Nat × ℚ) (etail : List (Nat × ℚ))
    (hsort : sortE (fun p => p.2) (mol.map eKey) = e0 :: etail) :
    ∀ c ∈ survivors R (some en) rms mol, val c = e0.2 ∨ val c - e0.2 ≤ en := by
  intro c hcs
  have hkc := survivor_id_in_kept R en rms mol h_some e0 etail hsort c hcs
  have hc : c ∈ mol := (survivors_sublist R (some en) rms mol).subset hcs
  rcases List.mem_cons.mp hkc with h | h
  · left
    have h5 := entry_val_of_id mol hnd e0 etail hsort c hc e0.2
      (by rw [h]; exact List.mem_cons_self _ _)
    exact h5.symm
  · right
    obtain ⟨it, hit, hit1⟩ := List.mem_map.mp h
    have hittail : it ∈ etail := List.mem_of_mem_filter hit
    have hcond : it.2 - e0.2 ≤ en := by
      have := (List.mem_filter.mp hit).2
      simpa using this
    have hval : it.2 = val c := by
      apply entry_val_of_id mol hnd e0 etail hsort c hc it.2
      refine List.mem_cons_of_mem e0 ?_
      have : it = (c.id, it.2) := by rw [← hit1]
      exact this ▸ hittail
    rw [← hval]
    exact hcond

/-- A survivor other than the sorted head forces the cutoff to be
nonnegative. -/
theorem cutoff_nonneg (R : Nat → Nat → ℚ) (en : ℚ) (rms : Option ℚ)
    (mol : List Conf) (h_some : ∀ c ∈ mol, c.energy.isSome = true)
    (e0 : Nat × ℚ) (etail : List (Nat × ℚ))
    (hsort : sortE (fun p => p.2) (mol.map eKey) = e0 :: etail)
    (c : Conf) (hcs : c ∈ survivors R (some en) rms mol) (hne : c.id ≠ e0.1) :
    0 ≤ en := by
  have hkc := survivor_id_in_kept R en rms mol h_some e0 etail hsort c hcs
  rcases List.mem_cons.mp hkc with h | h
  · exact absurd h hne
  · obtain ⟨it, hit, hit1⟩ := List.mem_map.mp h
    have hittail : it ∈ etail := List.mem_of_mem_filter hit
    have hcond : it.2 - e0.2 ≤ en := by
      have := (List.mem_filter.mp hit).2
      simpa using this
    have hsorted := sortE_sorted (fun p : Nat × ℚ => p.2) (mol.map eKey)
    rw [hsort, List.sorted_cons] at hsorted
    have h7 : e0.2 ≤ it.2 := hsorted.1 it hittail
    have h8 : 0 ≤ it.2 - e0.2 := sub_nonneg.mpr h7
    exact le_trans h8 hcond

/-- On the second pass, the head value is the original minimum and every
tail entry is within the cutoff of it. -/
theorem second_pass_tail_bound (R : Nat → Nat → ℚ) (en : ℚ) (rms : Option ℚ)
    (mol : List Conf) (h_some : ∀ c ∈ mol, c.energy.isSome = true)
    (hnd : (mol.map (fun c => c.id)).Nodup) (e0 : Nat × ℚ) (etail : List (Nat × ℚ))
    (hsort : sortE (fun p => p.2) (mol.map eKey) = e0 :: etail)
    (f0 : Nat × ℚ) (ftail : List (Nat × ℚ))
    (hsort2 : sortE (fun p => p.2)
      ((reindex (survivors R (some en) rms mol)).map eKey) = f0 :: ftail) :
    f0.2 = e0.2 ∧ ∀ it ∈ ftail, it.2 - f0.2 ≤ en := by
  set S := survivors R (some en) rms mol with hSdef
  have hf0 : f0.2 = e0.2 := by
    have hge : e0.2 ≤ f0.2 := by
      have hf0mem : f0 ∈ sortE (fun p : Nat × ℚ => p.2) ((reindex S).map eKey) := by
        rw [hsort2]; simp
      obtain ⟨c', hc', hck⟩ := List.mem_map.mp ((mem_sortE _ _ _).mp hf0mem)
      obtain ⟨c, hcS, hval, _⟩ := reindex_mem_val S c' hc'
      have h1 : e0.2 ≤ val c := sortE_head_min (fun p : Nat × ℚ => p.2) (mol.map eKey)
        e0 etail hsort (eKey c)
        (List.mem_map_of_mem _ ((survivors_sublist R (some en) rms mol).subset hcS))
      have h2 : f0.2 = val c' := (congrArg Prod.snd hck).symm
      rw [h2, hval]
      exact h1
    have hle : f0.2 ≤ e0.2 := by
      obtain ⟨c, hcS, _, hcval⟩ :=
        min_survivor R (some en) rms mol h_some hnd e0 etail hsort
      obtain ⟨c', hc', hval'⟩ := exists_reindex_val S c hcS
      have h1 : f0.2 ≤ val c' := sortE_head_min (fun p : Nat × ℚ => p.2)
        ((reindex S).map eKey) f0 ftail hsort2 (eKey c') (List.mem_map_of_mem _ hc')
      rw [hval', hcval] at h1
      exact h1
    exact le_antisymm hle hge
  refine ⟨hf0, ?_⟩
  intro it hit
  have hitmem : it ∈ sortE (fun p : Nat × ℚ => p.2) ((reindex S).map eKey) := by
    rw [hsort2]; exact List.mem_cons_of_mem f0 hit
  obtain ⟨c', hc', hck⟩ := List.mem_map.mp ((mem_sortE _ _ _).mp hitmem)
  obtain ⟨c, hcS, hval, _⟩ := reindex_mem_val S c' hc'
  have hit2 : it.2 = val c := by
    have h2 : it.2 = val c' := (congrArg Prod.snd hck).symm
    rw [h2, hval]
  rcases survivor_val_bound R en rms mol h_some hnd e0 etail hsort c hcS with hv | hv
  · have hlen2 : 2 ≤ S.length := by
      have h3 := sortE_length (fun p : Nat × ℚ => p.2) ((reindex S).map eKey)
      rw [hsort2, List.length_cons, List.length_map, reindex_length] at h3
      have hft : 1 ≤ ftail.length := by
        rcases ftail with _ | ⟨a, t⟩
        · cases hit
        · simp
      omega
    have hSnd : (S.map (fun c => c.id)).Nodup := survivors_ids_nodup R (some en) rms mol hnd
    obtain ⟨d, hd, hdne⟩ := exists_ne_id_of_two S hSnd hlen2 e0.1
    have h0le : 0 ≤ en := cutoff_nonneg R en rms mol h_some e0 etail hsort d hd hdne
    rw [hit2, hv, hf0, sub_self]
    exact h0le
  · rw [hit2, hf0]
    exact hv

/-- On the second pass with the same `energy`/`rms`, no pair of the new
`rms_list` is below the threshold: every such pair corresponds (through
the reindexing and the stability of the sort) to a pair of the first
pass's final list, which the greedy loop left above the threshold. -/
theorem second_pass_rms_no_viol (R : Nat → Nat → ℚ) (en r : ℚ) (mol : List Conf)
    (h_some : ∀ c ∈ mol, c.energy.isSome = true)
    (hnd : (mol.map (fun c => c.id)).Nodup) (e0 : Nat × ℚ) (etail : List (Nat × ℚ))
    (hsort : sortE (fun p => p.2) (mol.map eKey) = e0 :: etail)
    (f0 : Nat × ℚ) (ftail : List (Nat × ℚ))
    (hsort2 : sortE (fun p => p.2)
      ((reindex (survivors R (some en) (some r) mol)).map eKey) = f0 :: ftail) :
    ∀ item ∈ rmsList R (reindex (survivors R (some en) (some r) mol))
      (keptIds (some en) f0 ftail), ¬(item.2.2 < r) := by
  intro item hitem
  set S := survivors R (some en) (some r) mol with hSdef
  have hcore := remove_confs_core_eq R (some en) (some r) mol h_some e0 etail hsort
  set rem := removedEnergyIds (some en) e0 etail ++
    rmsRemovedIds R (some r) mol (keptIds (some en) e0 etail) with hremdef
  -- kept ids of the second pass are all sorted ids of the survivors
  have hcond2 := (second_pass_tail_bound R en (some r) mol h_some hnd e0 etail hsort
    f0 ftail hsort2).2
  have hkept2 : keptIds (some en) f0 ftail =
      (sortE (fun p : Nat × ℚ => p.2) ((reindex S).map eKey)).map
        (fun p : Nat × ℚ => p.1) := by
    show f0.1 :: (ftail.filter (fun it => decide (it.2 - f0.2 ≤ en))).map
      (fun it => it.1) = _
    have hfe : ftail.filter (fun it => decide (it.2 - f0.2 ≤ en)) = ftail :=
      List.filter_eq_self.mpr (fun a ha => by simpa using hcond2 a ha)
    rw [hfe, hsort2, List.map_cons]
  -- the sorted survivor entries as a relabelling of the sorted enum pairs
  have hmapg1 : (reindex S).map eKey =
      S.enum.map (fun p : Nat × Conf => (p.1, val p.2)) := by
    unfold reindex
    rw [List.map_map]
    rfl
  set σ := sortE (fun p : Nat × Conf => val p.2) S.enum with hσdef
  have hB2 : sortE (fun p : Nat × ℚ => p.2) ((reindex S).map eKey) =
      σ.map (fun p : Nat × Conf => (p.1, val p.2)) := by
    rw [hmapg1]
    exact sortE_map (fun p : Nat × Conf => val p.2) (fun p : Nat × ℚ => p.2)
      (fun p : Nat × Conf => (p.1, val p.2)) (fun a => rfl) S.enum
  have hkept2' : keptIds (some en) f0 ftail = σ.map (fun p : Nat × Conf => p.1) := by
    rw [hkept2, hB2, List.map_map]
    rfl
  -- decompose the offending item into a pair of σ
  obtain ⟨q, hq, hqe⟩ := List.mem_map.mp hitem
  rw [hkept2'] at hq
  rw [pairsOf_map (fun p : Nat × Conf => p.1) σ] at hq
  obtain ⟨w, hw, hwe⟩ := List.mem_map.mp hq
  -- w = (P, Q) a pair of sorted enum entries
  obtain ⟨P, Q⟩ := w
  have hPQ : (P, Q) ∈ pairsOf σ := hw
  have hPm : P ∈ σ := by
    have hs := sublist_of_mem_pairsOf P Q σ hPQ
    exact hs.subset (by simp)
  have hQm : Q ∈ σ := by
    have hs := sublist_of_mem_pairsOf P Q σ hPQ
    exact hs.subset (by simp)
  have hPenum : P ∈ S.enum := (sortE_perm _ _).subset hPm
  have hQenum : Q ∈ S.enum := (sortE_perm _ _).subset hQm
  have hPS : S[P.1]? = some P.2 := List.mem_enum_iff_getElem?.mp hPenum
  have hQS : S[Q.1]? = some Q.2 := List.mem_enum_iff_getElem?.mp hQenum
  have hPlt : P.1 < S.length := by
    by_contra hge
    rw [List.getElem?_eq_none (by omega)] at hPS
    cases hPS
  have hQlt : Q.1 < S.length := by
    by_contra hge
    rw [List.getElem?_eq_none (by omega)] at hQS
    cases hQS
  have hPS' : S[P.1] = P.2 := by
    rw [List.getElem?_eq_getElem hPlt] at hPS
    injection hPS
  have hQS' : S[Q.1] = Q.2 := by
    rw [List.getElem?_eq_getElem hQlt] at hQS
    injection hQS
  have hP2S : P.2 ∈ S := hPS' ▸ List.getElem_mem hPlt
  have hQ2S : Q.2 ∈ S := hQS' ▸ List.getElem_mem hQlt
  have hP2mol : P.2 ∈ mol := (survivors_sublist R (some en) (some r) mol).subset hP2S
  have hQ2mol : Q.2 ∈ mol := (survivors_sublist R (some en) (some r) mol).subset hQ2S
  -- the rms value carried by `item`
  have hval : item.2.2 = rmsdById R (reindex S) q.1 q.2 := by
    rw [← hqe]
  have hq1 : q.1 = P.1 := by rw [← hwe]
  have hq2 : q.2 = Q.1 := by rw [← hwe]
  have hrmsval : rmsdById R (reindex S) P.1 Q.1 = R P.2.geom Q.2.geom := by
    have hnd1 : ((reindex S).map (fun c => c.id)).Nodup := by
      rw [reindex_map_id]
      exact List.nodup_range _
    have hcP : (⟨P.1, S[P.1].geom, S[P.1].energy⟩ : Conf) ∈ reindex S :=
      (mem_reindex_iff S _).mpr ⟨P.1, hPlt, rfl⟩
    have hcQ : (⟨Q.1, S[Q.1].geom, S[Q.1].energy⟩ : Conf) ∈ reindex S :=
      (mem_reindex_iff S _).mpr ⟨Q.1, hQlt, rfl⟩
    have h1 := rmsdById_of_mem R (reindex S) ⟨P.1, S[P.1].geom, S[P.1].energy⟩
      ⟨Q.1, S[Q.1].geom, S[Q.1].energy⟩ hnd1 hcP hcQ
    rw [hPS', hQS'] at h1
    exact h1
  -- transport the pair to the first pass's rms list
  have hg2 : σ.map (fun p : Nat × Conf => eKey p.2) =
      (e0 :: etail).filter (fun p : Nat × ℚ => !(rem.contains p.1)) := by
    have hA : σ.map (fun p : Nat × Conf => eKey p.2) =
        sortE (fun p : Nat × ℚ => p.2) (S.enum.map (fun p : Nat × Conf => eKey p.2)) :=
      (sortE_map (fun p : Nat × Conf => val p.2) (fun p : Nat × ℚ => p.2)
        (fun p : Nat × Conf => eKey p.2) (fun a => rfl) S.enum).symm
    have hB : S.enum.map (fun p : Nat × Conf => eKey p.2) = S.map eKey := by
      have h1 : S.enum.map (fun p : Nat × Conf => eKey p.2) =
          (S.enum.map Prod.snd).map eKey := by
        rw [List.map_map]
        rfl
      rw [h1, List.enum_map_snd]
    have hC : S.map eKey =
        (mol.map eKey).filter (fun p : Nat × ℚ => !(rem.contains p.1)) := by
      rw [filter_map_comm eKey (fun p : Nat × ℚ => !(rem.contains p.1)) mol]
      have h2 : (fun a : Conf => !(rem.contains (eKey a).1)) =
          (fun c : Conf => !(rem.contains c.id)) := rfl
      rw [h2]
      rw [hSdef, survivors_eq_filter R (some en) (some r) mol rem hcore]
    rw [hA, hB, hC, sortE_filter, hsort]
  have hpair1 : (P.2.id, Q.2.id) ∈ pairsOf (keptIds (some en) e0 etail) := by
    have h1 : ((fun p : Nat × Conf => eKey p.2) P, (fun p : Nat × Conf => eKey p.2) Q) ∈
        pairsOf (σ.map (fun p : Nat × Conf => eKey p.2)) := by
      rw [pairsOf_map]
      exact List.mem_map_of_mem _ hPQ
    rw [hg2] at h1
    have h2 : (P.2.id, Q.2.id) ∈ pairsOf
        (((e0 :: etail).filter (fun p : Nat × ℚ => !(rem.contains p.1))).map
          (fun p : Nat × ℚ => p.1)) := by
      rw [pairsOf_map]
      exact List.mem_map_of_mem _ h1
    have hFsub : (((e0 :: etail).filter
        (fun p : Nat × ℚ => !(rem.contains p.1))).map (fun p : Nat × ℚ => p.1)).Sublist
        (keptIds (some en) e0 etail) := by
      rw [← filter_map_comm (fun p : Nat × ℚ => p.1) (fun i => !(rem.contains i))
        (e0 :: etail)]
      apply filter_sublist_of_superset
      · have := sortE_eKey_ids_nodup mol hnd
        rw [hsort] at this
        exact this
      · exact keptIds_sublist (some en) e0 etail
      · intro x hx hpx
        obtain ⟨p, hp, rfl⟩ := List.mem_map.mp hx
        rcases List.mem_cons.mp hp with hp' | hp'
        · rw [hp']
          obtain ⟨kt, hkt, _⟩ := keptIds_cons (some en) e0 etail
          rw [hkt]
          exact List.mem_cons_self _ _
        · by_cases hcnd : p.2 - e0.2 ≤ en
          · show p.1 ∈ e0.1 :: (etail.filter
              (fun it => decide (it.2 - e0.2 ≤ en))).map (fun it => it.1)
            refine List.mem_cons_of_mem _ ?_
            exact List.mem_map_of_mem _
              (List.mem_filter.mpr ⟨hp', by simpa using hcnd⟩)
          · exfalso
            have hre : p.1 ∈ removedEnergyIds (some en) e0 etail := by
              show p.1 ∈ (etail.filter
                (fun it => !decide (it.2 - e0.2 ≤ en))).map (fun it => it.1)
              exact List.mem_map_of_mem _
                (List.mem_filter.mpr ⟨hp', by simpa using hcnd⟩)
            have hmem : p.1 ∈ rem := List.mem_append_left _ hre
            have hnot : p.1 ∉ rem := (not_contains_iff rem p.1).mp hpx
            exact hnot hmem
    exact pairsOf_subset_of_sublist _ _ hFsub _ h2
  -- both endpoints survived, so the pair is still in the final list
  have hPnot : P.2.id ∉ rem :=
    ((mem_survivors_iff R (some en) (some r) mol rem hcore P.2).mp hP2S).2
  have hQnot : Q.2.id ∉ rem :=
    ((mem_survivors_iff R (some en) (some r) mol rem hcore Q.2).mp hQ2S).2
  have hsubrem : ∀ x ∈ (pruneRms r (rmsList R mol (keptIds (some en) e0 etail))).2,
      x ∈ rem := by
    intro x hx
    exact List.mem_append_right _ hx
  have hitem1 : ((P.2.id, Q.2.id, rmsdById R mol P.2.id Q.2.id) : Nat × Nat × ℚ) ∈
      rmsList R mol (keptIds (some en) e0 etail) :=
    List.mem_map_of_mem _ hpair1
  have hfin := pruneRms_mem_result r (rmsList R mol (keptIds (some en) e0 etail))
    (P.2.id, Q.2.id, rmsdById R mol P.2.id Q.2.id) hitem1
    (fun hx => hPnot (hsubrem _ hx)) (fun hx => hQnot (hsubrem _ hx))
  have hnoviol := pruneRms_no_viol r (rmsList R mol (keptIds (some en) e0 etail)) _ hfin
  have hrms1 : rmsdById R mol P.2.id Q.2.id = R P.2.geom Q.2.geom :=
    rmsdById_of_mem R mol P.2 Q.2 hnd hP2mol hQ2mol
  rw [hval, hq1, hq2, hrmsval, ← hrms1]
  exact hnoviol

/-- **C6.** The Conformer Pruner is idempotent: running `remove_confs` a
second time with the same `energy`/`rms` on the pruned molecule removes no
further conformers — the conformer list is unchanged. -/
theorem C6_remove_confs_idempotent (R : Nat → Nat → ℚ) (en rms : Option ℚ)
    (mol : List Conf) (h_some : ∀ c ∈ mol, c.energy.isSome = true)
    (hnd : (mol.map (fun c => c.id)).Nodup) :
    remove_confs R en rms (remove_confs R en rms mol) = remove_confs R en rms mol := by
  by_cases hne : mol = []
  · subst hne
    rfl
  obtain ⟨e0, etail, hsort⟩ : ∃ e0 etail,
      sortE (fun p : Nat × ℚ => p.2) (mol.map eKey) = e0 :: etail := by
    rcases hs : sortE (fun p : Nat × ℚ => p.2) (mol.map eKey) with _ | ⟨e0, etail⟩
    · exact absurd hs (sortE_eKey_ne_nil mol hne)
    · exact ⟨e0, etail, rfl⟩
  have hcore := remove_confs_core_eq R en rms mol h_some e0 etail hsort
  have hm1 : remove_confs R en rms mol = reindex (survivors R en rms mol) :=
    remove_confs_eq_reindex_survivors R en rms mol _ hcore
  set S := survivors R en rms mol with hSdef
  rw [hm1]
  have hSne : S ≠ [] := by
    obtain ⟨c, hcS, _, _⟩ := min_survivor R en rms mol h_some hnd e0 etail hsort
    intro h
    rw [← hSdef] at hcS
    rw [h] at hcS
    cases hcS
  have hm1ne : reindex S ≠ [] := by
    intro h
    have h2 := reindex_length S
    rw [h] at h2
    simp only [List.length_nil] at h2
    exact hSne (List.length_eq_zero.mp h2.symm)
  have hm1some : ∀ c ∈ reindex S, c.energy.isSome = true :=
    reindex_energy_some S mol (survivors_sublist R en rms mol) h_some
  obtain ⟨f0, ftail, hsort2⟩ : ∃ f0 ftail,
      sortE (fun p : Nat × ℚ => p.2) ((reindex S).map eKey) = f0 :: ftail := by
    rcases hs : sortE (fun p : Nat × ℚ => p.2) ((reindex S).map eKey) with _ | ⟨f0, ftail⟩
    · exact absurd hs (sortE_eKey_ne_nil (reindex S) hm1ne)
    · exact ⟨f0, ftail, rfl⟩
  have hcore2 := remove_confs_core_eq R en rms (reindex S) hm1some f0 ftail hsort2
  have hremE : removedEnergyIds en f0 ftail = [] := by
    cases en with
    | none => rfl
    | some en' =>
      have hcond := (second_pass_tail_bound R en' rms mol h_some hnd e0 etail hsort
        f0 ftail hsort2).2
      show (ftail.filter (fun it => !decide (it.2 - f0.2 ≤ en'))).map
        (fun it => it.1) = []
      have hnil : ftail.filter (fun it => !decide (it.2 - f0.2 ≤ en')) = [] := by
        rw [List.filter_eq_nil_iff]
        intro a ha
        simpa using hcond a ha
      rw [hnil]
      rfl
  have hremR : rmsRemovedIds R rms (reindex S) (keptIds en f0 ftail) = [] := by
    cases rms with
    | none => rfl
    | some r =>
      show (pruneRms r (rmsList R (reindex S) (keptIds en f0 ftail))).2 = []
      apply pruneRms_removed_nil
      cases en with
      | none =>
        intro it hit
        have hnil : rmsList R (reindex S) (keptIds none f0 ftail) = [] := rfl
        rw [hnil] at hit
        cases hit
      | some en' =>
        exact second_pass_rms_no_viol R en' r mol h_some hnd e0 etail hsort
          f0 ftail hsort2
  have hcore2' : remove_confs_core R en rms (reindex S) = some [] := by
    rw [hcore2, hremE, hremR]
    rfl
  have hstep : remove_confs R en rms (reindex S) =
      reindex ((reindex S).filter
        (fun c => !(List.contains ([] : List Nat) c.id))) := by
    unfold remove_confs
    rw [hcore2']
  rw [hstep]
  have hft : (reindex S).filter (fun c => !(List.contains ([] : List Nat) c.id)) =
      reindex S := by
    have h2 : (fun c : Conf => !(List.contains ([] : List Nat) c.id)) =
        (fun _ : Conf => true) := rfl
    rw [h2, List.filter_true]
  rw [hft, reindex_reindex]

unseal Rat.sub in
theorem C6_remove_confs_idempotent_witness :
    remove_confs (fun a b => if a == b then 0 else if a + b == 21 then 0 else 7)
      (some 10) (some 1)
      (remove_confs (fun a b => if a == b then 0 else if a + b == 21 then 0 else 7)
        (some 10) (some 1)
        [(⟨0, 10, some 0⟩ : Conf), ⟨1, 11, some 1⟩, ⟨2, 12, some 50⟩]) =
    remove_confs (fun a b => if a == b then 0 else if a + b == 21 then 0 else 7)
      (some 10) (some 1)
      [(⟨0, 10, some 0⟩ : Conf), ⟨1, 11, some 1⟩, ⟨2, 12, some 50⟩] :=
  C6_remove_confs_idempotent
    (fun a b => if a == b then 0 else if a + b == 21 then 0 else 7)
    (some 10) (some 1)
    [⟨0, 10, some 0⟩, ⟨1, 11, some 1⟩, ⟨2, 12, some 50⟩]
    (by decide) (by decide)

/-! ## `gen_data` and the force-field failure path (claim C2)

In the source, `remove_confs` has no return value other than `None` — the
force-field-failure path merely returns *early*, leaving every conformer on
the molecule — and `gen_data` ignores the call's result (the line even
carries the comment `# what if it returns None?`).  The molecule object,
still holding its unpruned conformers, is put into `mol_dict`, and the
pharmacophore data is computed from it.  Stereoisomer enumeration,
conformer embedding and feature extraction are external chemistry: the
model takes the per-isomer conformer lists as input and an abstract
feature extractor `phFeat` (for `utils.load_multi_conf_mol` and the
`get_feature_coords`/`get_fp` loop). -/

def gen_data {Φ : Type} (R : Nat → Nat → ℚ) (energy rms : Option ℚ)
    (phFeat : List Conf → Φ) (mol_name : String) (variants : List (List Conf)) :
    String × List (Nat × List Conf) × List (Nat × Φ) :=
  (mol_name,
   variants.enum.map (fun p => (p.1, remove_confs R energy rms p.2)),
   variants.enum.map (fun p => (p.1, phFeat (remove_confs R energy rms p.2))))

/-- `create_db` skips a completed unit only `if not data`; `gen_data`
always returns a (truthy) triple, so the unit is written. -/
def create_db_writes_unit {Φ : Type}
    (_data : String × List (Nat × List Conf) × List (Nat × Φ)) : Bool :=
  true

/-- **C2.** Contrary to the claim, a variant whose force-field computation
fails still contributes record-store entries: `remove_confs` leaves the
conformers untouched, `gen_data` stores the unpruned molecule under the
variant's key (and feature data computed from it), and the orchestrator
writes the unit.  The second conjunct shows the failing variant's
conformer list is unchanged (energy `0` with a cutoff of `0` would have
pruned conformer `1` had the force field succeeded); the last shows every
variant always contributes exactly one `mol_dict` entry. -/
theorem C2_ff_failure_variant_still_stored {Φ : Type} (phFeat : List Conf → Φ) :
    (gen_data (fun _ _ => 0) (some 0) (some 1) phFeat "M"
        [[⟨0, 10, none⟩, ⟨1, 11, some 2⟩]] =
      ("M", [(0, [⟨0, 10, none⟩, ⟨1, 11, some 2⟩])],
        [(0, phFeat [⟨0, 10, none⟩, ⟨1, 11, some 2⟩])])) ∧
    remove_confs (fun _ _ => 0) (some 0) (some 1) [⟨0, 10, none⟩, ⟨1, 11, some 2⟩] =
      [⟨0, 10, none⟩, ⟨1, 11, some 2⟩] ∧
    create_db_writes_unit (gen_data (fun _ _ => 0) (some 0) (some 1) phFeat "M"
        [[⟨0, 10, none⟩, ⟨1, 11, some 2⟩]]) = true ∧
    (∀ (R : Nat → Nat → ℚ) (en rms : Option ℚ) (name : String)
      (variants : List (List Conf)),
      ((gen_data R en rms phFeat name variants).2.1).length = variants.length) := by
  refine ⟨rfl, rfl, rfl, ?_⟩
  intro R en rms name variants
  show (variants.enum.map _).length = variants.length
  rw [List.length_map, List.enum_length]

/-! ## The corrected-input manifest of `create_db` (claim C8) -/

/-- The data frame `pd.DataFrame(data={'smi': box_smi, 'cid': box_mol_ids,
'if_changed': box_flags})`. -/
structure Manifest where
  smi : List String
  cid : List String
  if_changed : List Bool
deriving DecidableEq

/-- How pandas renders a Python bool in csv output. -/
def pyBoolStr (b : Bool) : String := if b then "True" else "False"

/-- The lines `df.to_csv(new_in_fname, sep='\t', index=None)` writes: the
header row of the three column names, then one tab-separated row per
record. -/
def Manifest.render (m : Manifest) : List String :=
  ("smi" ++ "\t" ++ "cid" ++ "\t" ++ "if_changed") ::
    (m.smi.zip (m.cid.zip m.if_changed)).map
      (fun r => r.1 ++ "\t" ++ r.2.1 ++ "\t" ++ pyBoolStr r.2.2)

/-- The manifest-writing decision of `create_db`: `if sum(flags) > 0`
(summing Python booleans counts the `True`s). -/
def create_db_manifest (st : List Entry) : Option Manifest :=
  if 0 < (flags st).count true then
    some ⟨smis st, cids st, flags st⟩
  else none

/-- The candidate filenames tried by the naming loop:
`{stem}-updated.smi` first, then `{stem}-updated2.smi`,
`{stem}-updated3.smi`, … — `stem` stands for
`os.path.splitext(in_fname)[0]`. -/
def manifest_cand (stem : String) : Nat → String
  | 0 => stem ++ "-updated.smi"
  | n + 1 => stem ++ "-updated" ++ Nat.repr (n + 2) ++ ".smi"

/-- The `while os.path.exists(new_in_fname)` loop over the candidates,
with the existing files as a finite list and explicit fuel;
`manifest_fname` supplies `ex.length + 1` units, enough by pigeonhole. -/
def manifest_fname_loop (ex : List String) (stem : String) : Nat → Nat → String
  | 0, k => manifest_cand stem k
  | f + 1, k =>
    if manifest_cand stem k ∈ ex then manifest_fname_loop ex stem f (k + 1)
    else manifest_cand stem k

def manifest_fname (ex : List String) (stem : String) : String :=
  manifest_fname_loop ex stem (ex.length + 1) 0

theorem data_manifest_cand_zero (stem : String) :
    (manifest_cand stem 0).data = stem.data ++ ("-updated".data ++ ".smi".data) := by
  show (stem ++ "-updated.smi").data = _
  rw [String.data_append]
  rfl

theorem data_manifest_cand_succ (stem : String) (n : Nat) :
    (manifest_cand stem (n + 1)).data =
      stem.data ++ ("-updated".data ++ (decChars (n + 2) ++ ".smi".data)) := by
  show (stem ++ "-updated" ++ Nat.repr (n + 2) ++ ".smi").data = _
  rw [String.data_append, String.data_append, String.data_append, repr_data,
    List.append_assoc, List.append_assoc]

theorem manifest_cand_zero_ne_succ (stem : String) (k : Nat) :
    manifest_cand stem 0 ≠ manifest_cand stem (k + 1) := by
  intro h
  have hd := congrArg String.data h
  rw [data_manifest_cand_zero, data_manifest_cand_succ] at hd
  have h1 := List.append_cancel_left (List.append_cancel_left hd)
  rcases hnil : decChars (k + 2) with _ | ⟨c, t⟩
  · exact decChars_ne_nil _ hnil
  · rw [hnil] at h1
    rw [show (".smi").data = '.' :: "smi".data from rfl] at h1
    injection h1 with hc _
    exact decChars_ne_dot (k + 2) c (by rw [hnil]; simp) hc.symm

theorem manifest_cand_inj (stem : String) (j k : Nat)
    (h : manifest_cand stem j = manifest_cand stem k) : j = k := by
  rcases j with _ | j <;> rcases k with _ | k
  · rfl
  · exact absurd h (manifest_cand_zero_ne_succ stem k)
  · exact absurd h.symm (manifest_cand_zero_ne_succ stem j)
  · have hd := congrArg String.data h
    rw [data_manifest_cand_succ, data_manifest_cand_succ] at hd
    have h1 := List.append_cancel_left (List.append_cancel_left hd)
    have h2 := List.append_cancel_right h1
    have := decChars_inj h2
    omega

theorem exists_manifest_cand_free (ex : List String) (stem : String) :
    ∃ i, i ≤ ex.length ∧ manifest_cand stem i ∉ ex := by
  by_contra hall
  push_neg at hall
  have hsub : ((List.range (ex.length + 1)).map (fun i => manifest_cand stem i)) ⊆ ex := by
    intro x hx
    simp only [List.mem_map, List.mem_range] at hx
    obtain ⟨i, hi, rfl⟩ := hx
    exact hall i (by omega)
  have hnd : ((List.range (ex.length + 1)).map (fun i => manifest_cand stem i)).Nodup := by
    refine List.Nodup.map ?_ (List.nodup_range _)
    intro a b hab
    exact manifest_cand_inj stem a b hab
  have hlen := List.Subperm.length_le (hnd.subperm hsub)
  simp at hlen

theorem manifest_fname_loop_spec (ex : List String) (stem : String) :
    ∀ (f k : Nat), (∃ i, i ≤ f ∧ manifest_cand stem (k + i) ∉ ex) →
      manifest_fname_loop ex stem (f + 1) k ∉ ex ∧
      ∃ j, manifest_fname_loop ex stem (f + 1) k = manifest_cand stem j := by
  intro f
  induction f with
  | zero =>
    intro k ⟨i, hi, hfree⟩
    have hi0 : i = 0 := by omega
    subst hi0
    simp only [Nat.add_zero] at hfree
    refine ⟨?_, k, ?_⟩ <;> simp [manifest_fname_loop, hfree]
  | succ f ih =>
    intro k ⟨i, hi, hfree⟩
    by_cases hmem : manifest_cand stem k ∈ ex
    · have hstep : manifest_fname_loop ex stem (f + 1 + 1) k =
          manifest_fname_loop ex stem (f + 1) (k + 1) := by
        simp [manifest_fname_loop, hmem]
      have hi' : ∃ i', i' ≤ f ∧ manifest_cand stem (k + 1 + i') ∉ ex := by
        rcases i with _ | i'
        · exact absurd hfree (by simpa using hmem)
        · exact ⟨i', by omega, by rw [show k + 1 + i' = k + (i' + 1) by omega]; exact hfree⟩
      obtain ⟨h1, j, h2⟩ := ih (k + 1) hi'
      rw [hstep]
      exact ⟨h1, j, h2⟩
    · refine ⟨?_, k, ?_⟩ <;> simp [manifest_fname_loop, hmem]

theorem manifest_fname_spec (ex : List String) (stem : String) :
    manifest_fname ex stem ∉ ex ∧
    ∃ j, manifest_fname ex stem = manifest_cand stem j := by
  obtain ⟨i, hi, hfree⟩ := exists_manifest_cand_free ex stem
  exact manifest_fname_loop_spec ex stem ex.length 0 ⟨i, hi, by simpa using hfree⟩

/-- **C8.** The orchestrator writes the corrected-input manifest iff some
input record was flagged altered (`sum(flags) > 0`); the rendered manifest
is tab-separated with header row `smi`, `cid`, `if_changed` and one row
per input record; and the chosen filename is one of the
`{stem}-updated…​.smi` candidates derived from the input filename, never an
existing file. -/
theorem C8_manifest_written_iff_flagged (st : List Entry) (ex : List String)
    (stem : String) :
    ((create_db_manifest st).isSome = true ↔ true ∈ flags st) ∧
    (∀ m, create_db_manifest st = some m →
      m.render = ("smi" ++ "\t" ++ "cid" ++ "\t" ++ "if_changed") ::
        st.map (fun e => e.smi ++ "\t" ++ e.cid ++ "\t" ++ pyBoolStr e.flag)) ∧
    manifest_fname ex stem ∉ ex ∧
    (∃ j, manifest_fname ex stem = manifest_cand stem j) := by
  refine ⟨?_, ?_, (manifest_fname_spec ex stem).1, (manifest_fname_spec ex stem).2⟩
  · unfold create_db_manifest
    by_cases h : 0 < (flags st).count true
    · rw [if_pos h]
      simpa using List.count_pos_iff.mp h
    · rw [if_neg h]
      constructor
      · intro hfalse
        cases hfalse
      · intro hmem
        exact absurd (List.count_pos_iff.mpr hmem) h
  · intro m hm
    unfold create_db_manifest at hm
    by_cases h : 0 < (flags st).count true
    · rw [if_pos h] at hm
      injection hm with hm
      subst hm
      unfold Manifest.render
      congr 1
      unfold smis cids flags
      rw [List.zip_map' (fun e : Entry => e.cid) (fun e : Entry => e.flag) st]
      rw [List.zip_map' (fun e : Entry => e.smi)
        (fun e : Entry => (e.cid, e.flag)) st]
      rw [List.map_map]
      rfl
    · rw [if_neg h] at hm
      cases hm

theorem C8_manifest_written_iff_flagged_witness :
    ((create_db_manifest [⟨some ⟨"C"⟩, "C", "A", false⟩,
        ⟨none, "duplicate", "B", true⟩]).isSome = true ↔
      true ∈ flags [⟨some ⟨"C"⟩, "C", "A", false⟩, ⟨none, "duplicate", "B", true⟩]) ∧
    (Manifest.render ⟨["C", "duplicate"], ["A", "B"], [false, true]⟩ =
      ("smi" ++ "\t" ++ "cid" ++ "\t" ++ "if_changed") ::
        List.map (fun e : Entry => e.smi ++ "\t" ++ e.cid ++ "\t" ++ pyBoolStr e.flag)
          ([⟨some ⟨"C"⟩, "C", "A", false⟩, ⟨none, "duplicate", "B", true⟩] :
            List Entry)) ∧
    manifest_fname ["x-updated.smi"] "x" ∉ ["x-updated.smi"] ∧
    (∃ j, manifest_fname ["x-updated.smi"] "x" = manifest_cand "x" j) :=
  ⟨(C8_manifest_written_iff_flagged [⟨some ⟨"C"⟩, "C", "A", false⟩,
      ⟨none, "duplicate", "B", true⟩] ["x-updated.smi"] "x").1,
   (C8_manifest_written_iff_flagged [⟨some ⟨"C"⟩, "C", "A", false⟩,
      ⟨none, "duplicate", "B", true⟩] ["x-updated.smi"] "x").2.1
     ⟨["C", "duplicate"], ["A", "B"], [false, true]⟩ (by decide),
   (C8_manifest_written_iff_flagged [⟨some ⟨"C"⟩, "C", "A", false⟩,
      ⟨none, "duplicate", "B", true⟩] ["x-updated.smi"] "x").2.2.1,
   (C8_manifest_written_iff_flagged [⟨some ⟨"C"⟩, "C", "A", false⟩,
      ⟨none, "duplicate", "B", true⟩] ["x-updated.smi"] "x").2.2.2⟩

end PSearch
